import Mathlib

set_option linter.unusedVariables false

/-!
Verification of the LMS (Large Model Support) graph-rewriting core:
a shallow embedding of `src/lms/topos.py` (leveled topological order)
and `src/lms/lms.py` (swap scheduler and anchor search), with theorems
checking the natural-language specification against the code.

Graph model: an operation is a node with a numeric id, a slash-delimited
name (modelled as its list of scope components), a type tag, a list of
data inputs (each input is a tensor, identified by the pair
(producer op id, output index)) and a list of control-input op ids.
A graph is a list of operations.
-/

namespace LMSVerif

/-- A tensor reference: (producer operation id, output index). -/
abbrev TensorRef := Nat × Nat

/-- An operation of the computation graph (`tf.Operation` in the source). -/
structure Oper where
  id : Nat
  name : List String
  ty : String
  inputs : List TensorRef
  ctrlInputs : List Nat
  nOutputs : Nat
deriving DecidableEq, Repr

/-- A computation graph: the list returned by `graph.get_operations()`. -/
structure Graph where
  ops : List Oper
deriving DecidableEq, Repr

/-- Look up an operation by id. -/
def opById (g : Graph) (i : Nat) : Option Oper :=
  g.ops.find? (fun o => o.id = i)

/-- `ut.fanins(op) | set(op.control_inputs)`: the dependency set of an
operation, as used by `TOPOS.build` in `topos.py`: producers of the
data inputs united with the control-input operations (deduplicated,
since the source uses Python sets). -/
def depsOf (o : Oper) : List Nat :=
  (o.inputs.map Prod.fst ++ o.ctrlInputs).dedup

/-- `util.get_consuming_ops(t)`: ids of the operations that consume
tensor `t` via a data input. -/
def consumingOps (g : Graph) (t : TensorRef) : List Nat :=
  (g.ops.filter (fun o => t ∈ o.inputs)).map Oper.id

/-- The output tensors of an operation (`op.outputs`). -/
def outputsOf (o : Oper) : List TensorRef :=
  (List.range o.nOutputs).map (fun k => (o.id, k))

/-! ## TOPOS: the leveled topological order (`topos.py`) -/

/-- A dependency dictionary (`dep_dict` in `TOPOS.build`): each entry maps
an operation id to its not-yet-resolved dependency ids. -/
abbrev DepDict := List (Nat × List Nat)

/-- `dep_dict[op] = ut.fanins(op) | set(op.control_inputs)` for every
operation in the graph. -/
def depDict (g : Graph) : DepDict :=
  g.ops.map (fun o => (o.id, depsOf o))

/-- `current_level_ops`: the entries of the dictionary whose remaining
dependency set is empty. -/
def readyOps (d : DepDict) : List Nat :=
  (d.filter (fun p => p.2 = [])).map Prod.fst

/-- One round of `TOPOS.build`'s loop body: drop the extracted operations
and remove them from every remaining dependency set. -/
def removeReady (d : DepDict) (r : List Nat) : DepDict :=
  (d.filter (fun p => p.1 ∉ r)).map (fun p => (p.1, p.2.filter (fun x => x ∉ r)))

theorem removeReady_length_lt (d : DepDict) (r : List Nat)
    (h : ∃ p ∈ d, p.1 ∈ r) : (removeReady d r).length < d.length := by
  have hlt : (d.filter (fun p => p.1 ∉ r)).length < d.length := by
    obtain ⟨p, hp, hpr⟩ := h
    refine lt_of_le_of_ne (List.length_filter_le _ _) (fun he => ?_)
    have := (List.filter_length_eq_length.mp he) p hp
    simp [hpr] at this
  simpa [removeReady] using hlt

theorem readyOps_mem (d : DepDict) (h : readyOps d ≠ []) :
    ∃ p ∈ d, p.1 ∈ readyOps d := by
  unfold readyOps at *
  obtain ⟨x, hx⟩ := List.exists_mem_of_ne_nil _ h
  obtain ⟨p, hp, hpe⟩ := List.mem_map.mp hx
  exact ⟨p, (List.mem_filter.mp hp).1, hpe ▸ List.mem_map_of_mem _ hp⟩

/-- The `while True` loop of `TOPOS.build`, with explicit fuel (the loop
extracts at least one entry per round, so `d.length` rounds always
suffice; `buildSort` below supplies that fuel). -/
def buildSortAux : Nat → DepDict → List (List Nat)
  | 0, _ => []
  | fuel + 1, d =>
    if readyOps d = [] then []
    else readyOps d :: buildSortAux fuel (removeReady d (readyOps d))

/-- The `while True` loop of `TOPOS.build`: repeatedly extract the
operations with an empty remaining dependency set; each extracted batch
is the next level of the categorized topological sort. -/
def buildSort (d : DepDict) : List (List Nat) :=
  buildSortAux d.length d

theorem buildSortAux_congr :
    ∀ (fuel₁ fuel₂ : Nat) (d : DepDict), d.length ≤ fuel₁ → d.length ≤ fuel₂ →
      buildSortAux fuel₁ d = buildSortAux fuel₂ d := by
  intro fuel₁
  induction fuel₁ with
  | zero =>
    intro fuel₂ d h1 _
    have hd : d = [] := List.length_eq_zero.mp (Nat.le_zero.mp h1)
    subst hd
    cases fuel₂ with
    | zero => rfl
    | succ fuel₂ => simp [buildSortAux, readyOps]
  | succ fuel₁ ih =>
    intro fuel₂ d h1 h2
    cases fuel₂ with
    | zero =>
      have hd : d = [] := List.length_eq_zero.mp (Nat.le_zero.mp h2)
      subst hd
      simp [buildSortAux, readyOps]
    | succ fuel₂ =>
      show (if readyOps d = [] then []
            else readyOps d :: buildSortAux fuel₁ (removeReady d (readyOps d)))
        = (if readyOps d = [] then []
            else readyOps d :: buildSortAux fuel₂ (removeReady d (readyOps d)))
      by_cases hr : readyOps d = []
      · simp [hr]
      · have hlt := removeReady_length_lt d (readyOps d) (readyOps_mem d hr)
        rw [if_neg hr, if_neg hr,
          ih fuel₂ (removeReady d (readyOps d)) (by omega) (by omega)]

theorem buildSort_nil {d : DepDict} (h : readyOps d = []) : buildSort d = [] := by
  unfold buildSort
  cases d with
  | nil => rfl
  | cons p d' => simp [buildSortAux, h]

theorem buildSort_cons {d : DepDict} (h : readyOps d ≠ []) :
    buildSort d = readyOps d :: buildSort (removeReady d (readyOps d)) := by
  have hd : d ≠ [] := by
    intro he
    subst he
    exact h rfl
  have hlen : 1 ≤ d.length := by
    cases d with
    | nil => exact absurd rfl hd
    | cons p d' => simp
  have hlt := removeReady_length_lt d (readyOps d) (readyOps_mem d h)
  unfold buildSort
  cases hn : d.length with
  | zero => omega
  | succ n =>
    show (if readyOps d = [] then []
          else readyOps d :: buildSortAux n (removeReady d (readyOps d))) = _
    rw [if_neg h]
    congr 1
    exact buildSortAux_congr n (removeReady d (readyOps d)).length
      (removeReady d (readyOps d)) (by omega) le_rfl

/-- Scan the batches in order, remembering the index of the last batch
that contains `op` (helper for `levelOf`). -/
def lastIdxAux (op : Nat) : List (List Nat) → Nat → Option Nat → Option Nat
  | [], _, acc => acc
  | b :: bs, i, acc =>
    lastIdxAux op bs (i + 1) (if op ∈ b then some i else acc)

/-- Level lookup from a categorized topological sort: the index of the
last batch containing the operation (`self._levels[op] = i` assigns
levels in increasing `i`, so a later batch overwrites an earlier one;
within a single `build` the batches are disjoint, but after two
`build()` calls without `reset()` the same operation occurs twice). -/
def levelOf (sort : List (List Nat)) (op : Nat) : Option Nat :=
  lastIdxAux op sort 0 none

/-- The batch of operations at a given level of a categorized sort. -/
def batchAt (s : List (List Nat)) (i : Nat) : List Nat := s.getD i []

/-- The `TOPOS` object's mutable state: `self._topo_sort`
(`self._levels` is derived from it by `levelOf`). -/
structure TOPOS where
  topoSort : List (List Nat)
deriving DecidableEq, Repr

/-- A freshly constructed `TOPOS` object (`TOPOS.__init__`). -/
def TOPOS.empty : TOPOS := ⟨[]⟩

/-- `TOPOS.reset`: clear the topological sort. -/
def TOPOS.reset (_t : TOPOS) : TOPOS := ⟨[]⟩

/-- `TOPOS.build`: run the categorized-sort loop on the graph and APPEND
the produced batches to `self._topo_sort` (the source does not clear
`self._topo_sort` before the loop). -/
def TOPOS.build (t : TOPOS) (g : Graph) : TOPOS :=
  ⟨t.topoSort ++ buildSort (depDict g)⟩

/-- `TOPOS.get_level` (and the level map `self._levels`): the level of an
operation, or `none` if it has no assigned level. -/
def TOPOS.getLevel (t : TOPOS) (op : Nat) : Option Nat :=
  levelOf t.topoSort op

/-- `TOPOS.size`: the number of levels. -/
def TOPOS.size (t : TOPOS) : Nat := t.topoSort.length

/-! ### Properties of the categorized sort -/

/-- The keys of a dependency dictionary are distinct (Python dictionaries
have unique keys; `dep_dict`'s keys are the graph's operations). -/
def keysNodup (d : DepDict) : Prop := (d.map Prod.fst).Nodup

theorem mem_readyOps {d : DepDict} {op : Nat} :
    op ∈ readyOps d ↔ (op, ([] : List Nat)) ∈ d := by
  unfold readyOps
  constructor
  · intro h
    obtain ⟨p, hp, he⟩ := List.mem_map.mp h
    have := List.mem_filter.mp hp
    have h2 : p.2 = [] := by simpa using this.2
    have : p = (op, []) := by
      cases p; simp_all
    exact this ▸ this.symm ▸ (List.mem_filter.mp hp).1
  · intro h
    exact List.mem_map.mpr ⟨(op, []), List.mem_filter.mpr ⟨h, by simp⟩, rfl⟩

theorem mem_removeReady_of {d : DepDict} {op : Nat} {deps : List Nat}
    {r : List Nat} (h : (op, deps) ∈ d) (hr : op ∉ r) :
    (op, deps.filter (fun x => x ∉ r)) ∈ removeReady d r := by
  unfold removeReady
  exact List.mem_map.mpr ⟨(op, deps),
    List.mem_filter.mpr ⟨h, by simpa using hr⟩, rfl⟩

theorem mem_removeReady {d : DepDict} {p : Nat × List Nat} {r : List Nat}
    (h : p ∈ removeReady d r) :
    ∃ deps, (p.1, deps) ∈ d ∧ p.1 ∉ r ∧ p.2 = deps.filter (fun x => x ∉ r) := by
  unfold removeReady at h
  obtain ⟨q, hq, he⟩ := List.mem_map.mp h
  have hf := List.mem_filter.mp hq
  refine ⟨q.2, ?_, ?_, ?_⟩
  · have : p.1 = q.1 := by rw [← he]
    rw [this]
    exact hf.1
  · have : p.1 = q.1 := by rw [← he]
    rw [this]
    simpa using hf.2
  · rw [← he]

theorem keys_removeReady_sublist (d : DepDict) (r : List Nat) :
    ((removeReady d r).map Prod.fst).Sublist (d.map Prod.fst) := by
  unfold removeReady
  rw [List.map_map]
  have : (Prod.fst ∘ fun p : Nat × List Nat => (p.1, p.2.filter (fun x => x ∉ r)))
      = Prod.fst := by
    funext p; rfl
  rw [this]
  exact (List.filter_sublist d).map Prod.fst

theorem keysNodup_removeReady {d : DepDict} (h : keysNodup d) (r : List Nat) :
    keysNodup (removeReady d r) :=
  (keys_removeReady_sublist d r).nodup h

/-- With distinct keys, an operation's dependency entry is unique. -/
theorem entry_unique {d : DepDict} (h : keysNodup d) {op : Nat}
    {a b : List Nat} (ha : (op, a) ∈ d) (hb : (op, b) ∈ d) : a = b := by
  induction d with
  | nil => cases ha
  | cons q d ih =>
    have hn : q.1 ∉ d.map Prod.fst ∧ keysNodup d := by
      simpa [keysNodup] using h
    rcases List.mem_cons.mp ha with ha1 | ha1 <;>
      rcases List.mem_cons.mp hb with hb1 | hb1
    · rw [← ha1] at hb1; cases hb1; rfl
    · exfalso
      have hmem : (op : Nat) ∈ d.map Prod.fst := List.mem_map.mpr ⟨(op, b), hb1, rfl⟩
      have hq1 : q.1 = op := by rw [← ha1]
      exact hn.1 (hq1 ▸ hmem)
    · exfalso
      have hmem : (op : Nat) ∈ d.map Prod.fst := List.mem_map.mpr ⟨(op, a), ha1, rfl⟩
      have hq1 : q.1 = op := by rw [← hb1]
      exact hn.1 (hq1 ▸ hmem)
    · exact ih hn.2 ha1 hb1

theorem keys_removeReady_not_ready {d : DepDict} {r : List Nat} {op : Nat}
    (h : op ∈ (removeReady d r).map Prod.fst) : op ∉ r := by
  obtain ⟨p, hp, he⟩ := List.mem_map.mp h
  obtain ⟨deps, _, hnr, _⟩ := mem_removeReady hp
  exact he ▸ hnr

/-- Every operation placed in some batch of the sort is a key of the
dependency dictionary. -/
theorem batch_mem_keys_aux (n : Nat) :
    ∀ (d : DepDict), d.length ≤ n → ∀ i op,
      op ∈ batchAt (buildSort d) i → op ∈ d.map Prod.fst := by
  induction n with
  | zero =>
    intro d hd i op hop
    have hd0 : d = [] := List.length_eq_zero.mp (Nat.le_zero.mp hd)
    subst hd0
    rw [buildSort_nil (by rfl)] at hop
    simp [batchAt] at hop
  | succ n ih =>
    intro d hd i op hop
    by_cases hr : readyOps d = []
    · rw [buildSort_nil hr] at hop; simp [batchAt] at hop
    · rw [buildSort_cons hr] at hop
      cases i with
      | zero =>
        have hop0 : op ∈ readyOps d := by simpa [batchAt] using hop
        exact List.mem_map.mpr ⟨(op, []), mem_readyOps.mp hop0, rfl⟩
      | succ i =>
        have hop' : op ∈ batchAt (buildSort (removeReady d (readyOps d))) i := by
          simpa [batchAt] using hop
        have hlen : (removeReady d (readyOps d)).length ≤ n := by
          have := removeReady_length_lt d (readyOps d) (readyOps_mem d hr)
          omega
        exact (keys_removeReady_sublist d (readyOps d)).subset (ih _ hlen i op hop')

theorem batch_mem_keys {d : DepDict} {i op : Nat}
    (h : op ∈ batchAt (buildSort d) i) : op ∈ d.map Prod.fst :=
  batch_mem_keys_aux d.length d le_rfl i op h

/-- Monotonicity: each dependency of an operation placed at level `i` was
placed at a strictly earlier level. -/
theorem deps_earlier_aux (n : Nat) :
    ∀ (d : DepDict), d.length ≤ n → keysNodup d →
    ∀ op deps, (op, deps) ∈ d →
    ∀ i, op ∈ batchAt (buildSort d) i →
    ∀ x ∈ deps, ∃ j, j < i ∧ x ∈ batchAt (buildSort d) j := by
  induction n with
  | zero =>
    intro d hd _ op deps hmem i hop
    have hd0 : d = [] := List.length_eq_zero.mp (Nat.le_zero.mp hd)
    subst hd0; cases hmem
  | succ n ih =>
    intro d hd hnd op deps hmem i hop x hx
    by_cases hr : readyOps d = []
    · rw [buildSort_nil hr] at hop; simp [batchAt] at hop
    · rw [buildSort_cons hr] at hop
      cases i with
      | zero =>
        have hop0 : op ∈ readyOps d := by simpa [batchAt] using hop
        have : deps = [] := entry_unique hnd hmem (mem_readyOps.mp hop0)
        subst this; cases hx
      | succ i =>
        have hop' : op ∈ batchAt (buildSort (removeReady d (readyOps d))) i := by
          simpa [batchAt] using hop
        have hnr : op ∉ readyOps d :=
          keys_removeReady_not_ready (batch_mem_keys hop')
        have hmem' := mem_removeReady_of hmem hnr
        have hlen : (removeReady d (readyOps d)).length ≤ n := by
          have := removeReady_length_lt d (readyOps d) (readyOps_mem d hr)
          omega
        by_cases hxr : x ∈ readyOps d
        · refine ⟨0, Nat.succ_pos _, ?_⟩
          rw [buildSort_cons hr]
          simpa [batchAt] using hxr
        · have hxf : x ∈ deps.filter (fun y => y ∉ readyOps d) :=
            List.mem_filter.mpr ⟨hx, by simpa using hxr⟩
          obtain ⟨j, hj, hxj⟩ := ih _ hlen (keysNodup_removeReady hnd _)
            op _ hmem' i hop' x hxf
          refine ⟨j + 1, Nat.succ_lt_succ hj, ?_⟩
          rw [buildSort_cons hr]
          simpa [batchAt] using hxj

/-- Exactness: an operation placed at level `i+1` has a dependency placed
exactly at level `i` (so the level is the length of the longest
dependency chain, not merely an upper bound). -/
theorem dep_at_pred_aux (n : Nat) :
    ∀ (d : DepDict), d.length ≤ n → keysNodup d →
    ∀ op deps, (op, deps) ∈ d →
    ∀ i, op ∈ batchAt (buildSort d) (i + 1) →
    ∃ x ∈ deps, x ∈ batchAt (buildSort d) i := by
  induction n with
  | zero =>
    intro d hd _ op deps hmem i hop
    have hd0 : d = [] := List.length_eq_zero.mp (Nat.le_zero.mp hd)
    subst hd0; cases hmem
  | succ n ih =>
    intro d hd hnd op deps hmem i hop
    by_cases hr : readyOps d = []
    · rw [buildSort_nil hr] at hop; simp [batchAt] at hop
    · rw [buildSort_cons hr] at hop
      have hop' : op ∈ batchAt (buildSort (removeReady d (readyOps d))) i := by
        simpa [batchAt] using hop
      have hnr : op ∉ readyOps d :=
        keys_removeReady_not_ready (batch_mem_keys hop')
      have hmem' := mem_removeReady_of hmem hnr
      have hlen : (removeReady d (readyOps d)).length ≤ n := by
        have := removeReady_length_lt d (readyOps d) (readyOps_mem d hr)
        omega
      cases i with
      | zero =>
        -- `op` is ready in the next round: all its remaining deps were
        -- just removed, and it was not ready in this round.
        by_cases hr' : readyOps (removeReady d (readyOps d)) = []
        · rw [buildSort_nil hr'] at hop'; simp [batchAt] at hop'
        · rw [buildSort_cons hr'] at hop'
          have hop0 : op ∈ readyOps (removeReady d (readyOps d)) := by
            simpa [batchAt] using hop'
          have hfe : deps.filter (fun y => y ∉ readyOps d) = [] :=
            entry_unique (keysNodup_removeReady hnd _) hmem' (mem_readyOps.mp hop0)
          have hdne : deps ≠ [] := by
            intro he
            subst he
            exact hnr (mem_readyOps.mpr hmem)
          obtain ⟨x, hx⟩ := List.exists_mem_of_ne_nil _ hdne
          have hxr : x ∈ readyOps d := by
            by_contra hc
            have : x ∈ deps.filter (fun y => y ∉ readyOps d) :=
              List.mem_filter.mpr ⟨hx, by simpa using hc⟩
            rw [hfe] at this; cases this
          refine ⟨x, hx, ?_⟩
          rw [buildSort_cons hr]
          simpa [batchAt] using hxr
      | succ i =>
        obtain ⟨x, hx, hxb⟩ := ih _ hlen (keysNodup_removeReady hnd _)
          op _ hmem' i hop'
        refine ⟨x, (List.mem_filter.mp hx).1, ?_⟩
        rw [buildSort_cons hr]
        simpa [batchAt] using hxb

/-- Within a single `build`, the batches are pairwise disjoint: an
operation is placed at exactly one level. -/
theorem batch_unique_aux (n : Nat) :
    ∀ (d : DepDict), d.length ≤ n → ∀ op i j,
      op ∈ batchAt (buildSort d) i → op ∈ batchAt (buildSort d) j → i = j := by
  induction n with
  | zero =>
    intro d hd op i j hi _
    have hd0 : d = [] := List.length_eq_zero.mp (Nat.le_zero.mp hd)
    subst hd0
    rw [buildSort_nil (by rfl)] at hi
    simp [batchAt] at hi
  | succ n ih =>
    intro d hd op i j hi hj
    by_cases hr : readyOps d = []
    · rw [buildSort_nil hr] at hi; simp [batchAt] at hi
    · rw [buildSort_cons hr] at hi hj
      have hlen : (removeReady d (readyOps d)).length ≤ n := by
        have := removeReady_length_lt d (readyOps d) (readyOps_mem d hr)
        omega
      cases i with
      | zero =>
        cases j with
        | zero => rfl
        | succ j =>
          have hi0 : op ∈ readyOps d := by simpa [batchAt] using hi
          have hj' : op ∈ batchAt (buildSort (removeReady d (readyOps d))) j := by
            simpa [batchAt] using hj
          exact absurd hi0 (keys_removeReady_not_ready (batch_mem_keys hj'))
      | succ i =>
        cases j with
        | zero =>
          have hj0 : op ∈ readyOps d := by simpa [batchAt] using hj
          have hi' : op ∈ batchAt (buildSort (removeReady d (readyOps d))) i := by
            simpa [batchAt] using hi
          exact absurd hj0 (keys_removeReady_not_ready (batch_mem_keys hi'))
        | succ j =>
          have hi' : op ∈ batchAt (buildSort (removeReady d (readyOps d))) i := by
            simpa [batchAt] using hi
          have hj' : op ∈ batchAt (buildSort (removeReady d (readyOps d))) j := by
            simpa [batchAt] using hj
          exact congrArg Nat.succ (ih _ hlen op i j hi' hj')

theorem batch_unique {d : DepDict} {op i j : Nat}
    (hi : op ∈ batchAt (buildSort d) i) (hj : op ∈ batchAt (buildSort d) j) :
    i = j :=
  batch_unique_aux d.length d le_rfl op i j hi hj

/-! ### Relating `levelOf` to batch membership -/

theorem lastIdxAux_congr_none (op : Nat) :
    ∀ (bs : List (List Nat)) (i : Nat) (acc : Option Nat),
      (∀ b ∈ bs, op ∉ b) → lastIdxAux op bs i acc = acc := by
  intro bs
  induction bs with
  | nil => intro i acc _; rfl
  | cons b bs ih =>
    intro i acc h
    have hb : op ∉ b := h b (List.mem_cons_self b bs)
    show lastIdxAux op bs (i + 1) (if op ∈ b then some i else acc) = acc
    rw [if_neg hb]
    exact ih (i + 1) acc (fun b' hb' => h b' (List.mem_cons_of_mem b hb'))

theorem lastIdxAux_some (op : Nat) :
    ∀ (bs : List (List Nat)) (i0 : Nat) (acc : Option Nat) (k : Nat),
      lastIdxAux op bs i0 acc = some k →
      acc = some k ∨ ∃ m, op ∈ batchAt bs m ∧ k = i0 + m := by
  intro bs
  induction bs with
  | nil => intro i0 acc k h; exact Or.inl h
  | cons b bs ih =>
    intro i0 acc k h
    by_cases hb : op ∈ b
    · have h' : lastIdxAux op bs (i0 + 1) (some i0) = some k := by
        simpa [lastIdxAux, hb] using h
      rcases ih (i0 + 1) (some i0) k h' with h1 | ⟨m, hm, hk⟩
      · have hk0 : k = i0 := by injection h1.symm
        exact Or.inr ⟨0, by simpa [batchAt] using hb, by omega⟩
      · exact Or.inr ⟨m + 1, by simpa [batchAt] using hm, by omega⟩
    · have h' : lastIdxAux op bs (i0 + 1) acc = some k := by
        simpa [lastIdxAux, hb] using h
      rcases ih (i0 + 1) acc k h' with h1 | ⟨m, hm, hk⟩
      · exact Or.inl h1
      · exact Or.inr ⟨m + 1, by simpa [batchAt] using hm, by omega⟩

theorem lastIdxAux_mem_aux (op : Nat) :
    ∀ (bs : List (List Nat)) (m : Nat), op ∈ batchAt bs m →
    ∀ (i0 : Nat) (acc : Option Nat),
      (∀ j, op ∈ batchAt bs j → j = m) →
      lastIdxAux op bs i0 acc = some (i0 + m) := by
  intro bs
  induction bs with
  | nil => intro m hm; simp [batchAt] at hm
  | cons b bs ih =>
    intro m hm i0 acc huniq
    cases m with
    | zero =>
      have hb : op ∈ b := by simpa [batchAt] using hm
      have hrest : ∀ b' ∈ bs, op ∉ b' := by
        intro b' hb' hopb'
        obtain ⟨j, hj⟩ := List.mem_iff_getElem.mp hb'
        obtain ⟨hjl, hje⟩ := hj
        have : op ∈ batchAt bs j := by
          simp only [batchAt, List.getD_eq_getElem?_getD]
          rw [List.getElem?_eq_getElem hjl]
          simpa [hje] using hopb'
        have := huniq (j + 1) (by simpa [batchAt] using this)
        omega
      show lastIdxAux op bs (i0 + 1) (if op ∈ b then some i0 else acc) = some (i0 + 0)
      rw [if_pos hb]
      rw [lastIdxAux_congr_none op bs (i0 + 1) (some i0) hrest]
      simp
    | succ m =>
      have hb : op ∉ b := by
        intro hopb
        have := huniq 0 (by simpa [batchAt] using hopb)
        omega
      have hm' : op ∈ batchAt bs m := by simpa [batchAt] using hm
      have huniq' : ∀ j, op ∈ batchAt bs j → j = m := by
        intro j hj
        have := huniq (j + 1) (by simpa [batchAt] using hj)
        omega
      show lastIdxAux op bs (i0 + 1) (if op ∈ b then some i0 else acc) = some (i0 + (m + 1))
      rw [if_neg hb]
      rw [ih m hm' (i0 + 1) acc huniq']
      congr 1
      omega

theorem levelOf_eq_some_of {sort : List (List Nat)} {op i : Nat}
    (hop : op ∈ batchAt sort i) (huniq : ∀ j, op ∈ batchAt sort j → j = i) :
    levelOf sort op = some i := by
  simpa using lastIdxAux_mem_aux op sort i hop 0 none huniq

theorem levelOf_some_mem {sort : List (List Nat)} {op i : Nat}
    (h : levelOf sort op = some i) : op ∈ batchAt sort i := by
  rcases lastIdxAux_some op sort 0 none i h with h1 | ⟨m, hm, hk⟩
  · cases h1
  · have : i = m := by omega
    exact this ▸ hm

/-- For the sort produced by a single `build`, the level map is exactly
batch membership. -/
theorem levelOf_buildSort_iff {d : DepDict} {op i : Nat} :
    levelOf (buildSort d) op = some i ↔ op ∈ batchAt (buildSort d) i := by
  constructor
  · exact levelOf_some_mem
  · intro h
    exact levelOf_eq_some_of h (fun j hj => batch_unique hj h)

theorem levelOf_none_of {sort : List (List Nat)} {op : Nat}
    (h : ∀ b ∈ sort, op ∉ b) : levelOf sort op = none :=
  lastIdxAux_congr_none op sort 0 none h

theorem lastIdxAux_append (op : Nat) (s s' : List (List Nat)) :
    ∀ (i : Nat) (acc : Option Nat),
      lastIdxAux op (s ++ s') i acc = lastIdxAux op s' (i + s.length) (lastIdxAux op s i acc) := by
  induction s with
  | nil => intro i acc; rfl
  | cons b s ih =>
    intro i acc
    show lastIdxAux op (s ++ s') (i + 1) (if op ∈ b then some i else acc)
      = lastIdxAux op s' (i + (s.length + 1)) _
    rw [ih]
    congr 1
    omega

theorem lastIdxAux_shift (op : Nat) :
    ∀ (bs : List (List Nat)) (i : Nat) (acc : Option Nat),
      lastIdxAux op bs i acc =
        match lastIdxAux op bs 0 none with
        | some m => some (i + m)
        | none => acc := by
  intro bs
  induction bs with
  | nil => intro i acc; rfl
  | cons b bs ih =>
    intro i acc
    have hstep : lastIdxAux op (b :: bs) i acc
        = lastIdxAux op bs (i + 1) (if op ∈ b then some i else acc) := rfl
    have hstep0 : lastIdxAux op (b :: bs) 0 none
        = lastIdxAux op bs 1 (if op ∈ b then some 0 else none) := rfl
    rw [hstep, hstep0, ih (i + 1) (if op ∈ b then some i else acc),
      ih 1 (if op ∈ b then some 0 else none)]
    rcases hL : lastIdxAux op bs 0 none with _ | m
    · by_cases hb : op ∈ b <;> simp [hb]
    · have h1 : i + 1 + m = i + (1 + m) := by omega
      simp [h1]

/-- The level map read off a concatenation of two sorts: the second sort
wins (later assignments overwrite earlier ones), shifted by the length
of the first. -/
theorem levelOf_append (s s' : List (List Nat)) (op : Nat) :
    levelOf (s ++ s') op =
      match levelOf s' op with
      | some i => some (s.length + i)
      | none => levelOf s op := by
  unfold levelOf
  rw [lastIdxAux_append op s s' 0 none]
  rw [lastIdxAux_shift op s' (0 + s.length) (lastIdxAux op s 0 none)]
  rcases hL : lastIdxAux op s' 0 none with _ | m
  · rfl
  · have h1 : 0 + s.length + m = s.length + m := by omega
    simp [h1]

/-! ### Theorems for C1 and C6 -/

theorem depDict_keys (g : Graph) :
    (depDict g).map Prod.fst = g.ops.map Oper.id := by
  simp [depDict, List.map_map]

theorem mem_depDict {g : Graph} {o : Oper} (h : o ∈ g.ops) :
    (o.id, depsOf o) ∈ depDict g :=
  List.mem_map.mpr ⟨o, h, rfl⟩

theorem freshBuild_getLevel (g : Graph) (op : Nat) :
    (TOPOS.empty.build g).getLevel op = levelOf (buildSort (depDict g)) op := by
  simp [TOPOS.empty, TOPOS.build, TOPOS.getLevel]

/-- C1: after `build()`, every leveled operation's level is strictly
greater than the level of each of its dependencies, and equals the exact
length of the operation's longest dependency chain (level 0 means no
dependencies; level `k+1` means all dependencies are leveled below `k+1`
and some dependency is leveled exactly at `k`); operations placed in no
batch receive no level. -/
theorem c1_build_level_exact_longest_chain (g : Graph)
    (hn : (g.ops.map Oper.id).Nodup) (o : Oper) (ho : o ∈ g.ops) :
    (∀ i, (TOPOS.empty.build g).getLevel o.id = some i →
      (∀ x ∈ depsOf o, ∃ j, j < i ∧ (TOPOS.empty.build g).getLevel x = some j)
      ∧ (∀ k, i = k + 1 →
          ∃ x ∈ depsOf o, (TOPOS.empty.build g).getLevel x = some k)
      ∧ (i = 0 → depsOf o = []))
    ∧ ((∀ b ∈ (TOPOS.empty.build g).topoSort, o.id ∉ b) →
        (TOPOS.empty.build g).getLevel o.id = none) := by
  have hnd : keysNodup (depDict g) := by
    rw [keysNodup, depDict_keys]; exact hn
  constructor
  · intro i hl
    rw [freshBuild_getLevel] at hl
    have hbatch : o.id ∈ batchAt (buildSort (depDict g)) i :=
      levelOf_buildSort_iff.mp hl
    refine ⟨?_, ?_, ?_⟩
    · intro x hx
      obtain ⟨j, hj, hxj⟩ := deps_earlier_aux (depDict g).length (depDict g)
        le_rfl hnd o.id (depsOf o) (mem_depDict ho) i hbatch x hx
      exact ⟨j, hj, by rw [freshBuild_getLevel]; exact levelOf_buildSort_iff.mpr hxj⟩
    · intro k hk
      subst hk
      obtain ⟨x, hx, hxk⟩ := dep_at_pred_aux (depDict g).length (depDict g)
        le_rfl hnd o.id (depsOf o) (mem_depDict ho) k hbatch
      exact ⟨x, hx, by rw [freshBuild_getLevel]; exact levelOf_buildSort_iff.mpr hxk⟩
    · intro hi
      subst hi
      by_cases hr : readyOps (depDict g) = []
      · rw [buildSort_nil hr] at hbatch; simp [batchAt] at hbatch
      · rw [buildSort_cons hr] at hbatch
        have h0 : o.id ∈ readyOps (depDict g) := by simpa [batchAt] using hbatch
        exact entry_unique hnd (mem_depDict ho) (mem_readyOps.mp h0)
  · intro h
    rw [freshBuild_getLevel]
    refine levelOf_none_of (fun b hb => h b ?_)
    simpa [TOPOS.empty, TOPOS.build] using hb

/-- Witness for C1: a concrete diamond-shaped graph; operation 3 depends
on 1 and 2 (both at level 1), so it is leveled at 2 = its longest chain. -/
theorem c1_build_level_exact_longest_chain_witness :
    ((⟨[⟨0, ["a"], "X", [], [], 1⟩, ⟨1, ["b"], "X", [(0, 0)], [], 1⟩,
       ⟨2, ["c"], "X", [(0, 0)], [], 1⟩,
       ⟨3, ["d"], "X", [(1, 0), (2, 0)], [], 1⟩]⟩ : Graph).ops.map
        Oper.id).Nodup
    ∧ ∀ x ∈ depsOf (⟨3, ["d"], "X", [(1, 0), (2, 0)], [], 1⟩ : Oper),
        ∃ j, j < 2 ∧
          (TOPOS.empty.build
            (⟨[⟨0, ["a"], "X", [], [], 1⟩, ⟨1, ["b"], "X", [(0, 0)], [], 1⟩,
               ⟨2, ["c"], "X", [(0, 0)], [], 1⟩,
               ⟨3, ["d"], "X", [(1, 0), (2, 0)], [], 1⟩]⟩ : Graph)).getLevel x = some j := by
  refine ⟨by decide, ?_⟩
  have h := (c1_build_level_exact_longest_chain
    (⟨[⟨0, ["a"], "X", [], [], 1⟩, ⟨1, ["b"], "X", [(0, 0)], [], 1⟩,
       ⟨2, ["c"], "X", [(0, 0)], [], 1⟩,
       ⟨3, ["d"], "X", [(1, 0), (2, 0)], [], 1⟩]⟩ : Graph)
    (by decide) ⟨3, ["d"], "X", [(1, 0), (2, 0)], [], 1⟩ (by decide)).1 2 (by decide)
  exact h.1

/-- C6 (counterexample): `build()` is NOT idempotent. On a one-operation
graph, calling `build()` a second time without `reset()` yields level 1
for the operation, while a single fresh `build()` yields level 0: the
second call appends a duplicate sort instead of refreshing the map. -/
theorem c6_counterexample :
    ¬ ((((TOPOS.empty.build ⟨[⟨0, ["a"], "X", [], [], 1⟩]⟩).build
          ⟨[⟨0, ["a"], "X", [], [], 1⟩]⟩).getLevel 0)
        = (TOPOS.empty.build (⟨[⟨0, ["a"], "X", [], [], 1⟩]⟩ : Graph)).getLevel 0) := by
  decide

/-- C6 (amended): `reset()` followed by `build()` refreshes the level map
to exactly what a single fresh `build()` would produce; `build()` without
an intervening `reset()` is not idempotent: it appends the new sort, so
an operation leveled at `i` by a fresh build is re-leveled at
`size + i`, where `size` is the number of levels already stored
(operations of the current graph leveled in no batch keep whatever stale
level the old sort gave them). -/
theorem c6_reset_build_refreshes_build_alone_shifts :
    (∀ (t : TOPOS) (g : Graph) (op : Nat),
      ((t.reset).build g).getLevel op = (TOPOS.empty.build g).getLevel op)
    ∧ (∀ (t : TOPOS) (g : Graph) (op : Nat),
      (t.build g).getLevel op =
        match (TOPOS.empty.build g).getLevel op with
        | some i => some (t.size + i)
        | none => t.getLevel op) := by
  constructor
  · intro t g op
    rfl
  · intro t g op
    show levelOf (t.topoSort ++ buildSort (depDict g)) op = _
    rw [levelOf_append]
    rw [freshBuild_getLevel]
    rfl

/-! ## The Leveler interface used by the scheduler (`lms.py`)

`lms.py` calls `self.topo_sort.get_order(op)` and
`self.topo_sort.bw_starting_order`, which the `topos.py` under `src/`
does not define (it only defines `get_level`); they are modelled from
the spec. -/

/-- Modelled from the spec: `get_order(op) → integer level, or a sentinel
"unknown" value if op has no assigned level`; the design notes record
that "no level assigned" is "represented as negative numbers", and
`add_ctrld` tests `get_order(bw_op) < 0`, so the sentinel is `-1`. -/
def TOPOS.getOrder (t : TOPOS) (op : Nat) : Int :=
  match t.getLevel op with
  | some i => (i : Int)
  | none => -1

/-- `TOPOS.get_ops(level)`: the set of operations at that level, or
`None` if the level is out of `[0, size)`. -/
def TOPOS.getOps (t : TOPOS) (i : Int) : Option (List Nat) :=
  if 0 ≤ i ∧ i < (t.topoSort.length : Int) then some (batchAt t.topoSort i.toNat)
  else none

/-- Modelled from the spec: `bw_starting_order` is "recorded as the first
level at which backward-phase operations appear; used by the Anchor
Search as a boundary test". If no backward operation is leveled, every
level is in the forward phase, so the boundary is taken one past the
last level. -/
def bwStartingOrder (t : TOPOS) (gradOps : List Nat) : Int :=
  match (List.range t.size).find?
      (fun i => (batchAt t.topoSort i).any (fun op => op ∈ gradOps)) with
  | some i => (i : Int)
  | none => (t.size : Int)

/-! ## Forward reachability (`ge.get_forward_walk_ops`) -/

/-- The immediate successors of an operation: the operations consuming
one of its outputs or having it as a control input. Modelled from the
spec's collaborator contract: a "forward-reachability query
(inclusive/exclusive of start) over data+control edges"
(`ge.get_forward_walk_ops` is external TensorFlow code). -/
def succOps (g : Graph) (u : Nat) : List Nat :=
  (g.ops.filter
    (fun o => o.inputs.any (fun tr => tr.1 = u) || o.ctrlInputs.contains u)).map Oper.id

/-- Breadth-first closure with fuel. Each step either skips an
already-visited frontier entry or visits a new one, adding at most
`g.ops.length` successors, and at most `g.ops.length + 1` distinct ids
can ever be visited, so `(g.ops.length + 2) * (g.ops.length + 2)` steps
always exhaust the frontier. -/
def fwWalkAux (g : Graph) : Nat → List Nat → List Nat → List Nat
  | 0, _, visited => visited
  | fuel + 1, frontier, visited =>
    match frontier with
    | [] => visited
    | u :: fr =>
      if u ∈ visited then fwWalkAux g fuel fr visited
      else fwWalkAux g fuel (fr ++ succOps g u) (visited ++ [u])

/-- `ge.get_forward_walk_ops(op)` (inclusive of the start). -/
def forwardWalk (g : Graph) (start : Nat) : List Nat :=
  fwWalkAux g ((g.ops.length + 2) * (g.ops.length + 2)) [start] []

/-- `ge.get_forward_walk_ops(op, inclusive=False)`. -/
def forwardWalkEx (g : Graph) (start : Nat) : List Nat :=
  (forwardWalk g start).filter (fun v => v ≠ start)

/-! ## Anchor search strategies (`do_direct_order`, `do_chain_rule`) -/

/-- The `for i in reversed(range(range_lb, range_ub))` scan of
`do_direct_order`: at each level, keep the operations from which
`src_op` is forward-reachable; stop at the first level with a hit
(`next(iter(result_ops))` picks an arbitrary member; the embedding
picks the first). `n` is the number of remaining indices. -/
def scanLevels (g : Graph) (t : TOPOS) (srcId : Nat) : Nat → Int → Option Nat × Int
  | 0, _ => (none, -1)
  | n + 1, i =>
    match ((t.getOps i).getD []).filter (fun op => srcId ∈ forwardWalk g op) with
    | [] => scanLevels g t srcId n (i - 1)
    | c :: _ => (some c, i)

/-- `LMS.do_direct_order`: scan levels from `src_order - lower_b - 1`
down to `max(src_order - upper_b, fw_order) + 1`, descending. -/
def doDirectOrder (g : Graph) (t : TOPOS) (fwId srcId : Nat)
    (lowerB upperB : Int) : Option Nat × Int :=
  let fwOrder := t.getOrder fwId
  let srcOrder := t.getOrder srcId
  let rangeUb := srcOrder - lowerB
  let rangeLb := max (srcOrder - upperB) fwOrder + 1
  scanLevels g t srcId (rangeUb - rangeLb).toNat (rangeUb - 1)

/-- `if result_ops: return (next(iter(result_ops)), its order) else
(None, -1)` at the end of `do_chain_rule`. -/
def finishChain (t : TOPOS) (result : List Nat) : Option Nat × Int :=
  match result with
  | [] => (none, -1)
  | c :: _ => (some c, t.getOrder c)

/-- `set(util.get_consuming_ops(t))` united over `src_op.outputs`. -/
def allConsumingOps (g : Graph) (src : Nat) : List Nat :=
  match opById g src with
  | some o => ((outputsOf o).flatMap (fun tr => consumingOps g tr)).dedup
  | none => []

/-- The BFS loop of `do_chain_rule`: two queues (`open_set1` for the
current layer, `open_set2` for the next), a closed set, and the result
accumulator; `lower_b`/`upper_b` shrink by one when a layer completes.
Fuel bounds the number of loop iterations (each layer holds at most
`g.ops.length` distinct queued ids and at most `upper_b` layers run, as
`upper_b` decrements per layer and the loop stops at `upper_b == 0`). -/
def doChainRuleGo (g : Graph) (t : TOPOS) (gradOps : List Nat)
    (fwOrder bwOrder : Int) :
    Nat → Int → Int → List Nat → List Nat → List Nat → List Nat →
    Option Nat × Int
  | 0, _, _, _, _, _, result => finishChain t result
  | _ + 1, _, _, [], _, _, result => finishChain t result
  | fuel + 1, lowerB, upperB, src :: q1', q2, closed, result =>
      if upperB = 0 ∨ lowerB > upperB then finishChain t result
      else
        let totalConsuming := allConsumingOps g src
        let result' :=
          if lowerB ≤ 0 then
            result ++ ((totalConsuming.filter (fun op => op ∈ gradOps)).filter
              (fun op => fwOrder < t.getOrder op ∧ t.getOrder op < bwOrder)).filter
              (fun op => op ∉ result)
          else result
        let nextOps := totalConsuming.filter (fun op => op ∉ gradOps)
        let q2' := nextOps.foldl (fun acc op =>
          if op ∈ closed then acc
          else if op ∈ acc then acc else acc ++ [op]) q2
        let closed' := closed ++ [src]
        if q1' = [] then
          if result' ≠ [] then finishChain t result'
          else doChainRuleGo g t gradOps fwOrder bwOrder fuel
            (lowerB - 1) (upperB - 1) q2' [] closed' result'
        else doChainRuleGo g t gradOps fwOrder bwOrder fuel
          lowerB upperB q1' q2' closed' result'

/-- `LMS.do_chain_rule`: if the backward op is near the boundary between
the forward and backward phases, fall back to `do_direct_order`;
otherwise run the layered BFS from the forward op. -/
def doChainRule (g : Graph) (t : TOPOS) (gradOps : List Nat)
    (fwId bwId : Nat) (lowerB upperB : Int) : Option Nat × Int :=
  let fwOrder := t.getOrder fwId
  let bwOrder := t.getOrder bwId
  if bwOrder - lowerB < bwStartingOrder t gradOps then
    doDirectOrder g t fwId bwId lowerB upperB
  else
    doChainRuleGo g t gradOps fwOrder bwOrder
      ((upperB.toNat + 2) * (g.ops.length + 2) + 2) lowerB upperB [fwId] [] [] []

/-! ### Theorems for C9 and C2 -/

/-- C9: if the anchor window's upper edge (consumer level minus `lb`)
lies before the backward-phase boundary `bw_starting_order`, the
chain-rule strategy falls back to the direct-order strategy with the
same producer, consumer and bounds, instead of running its
breadth-first expansion. -/
theorem c9_chain_rule_falls_back_to_direct_order (g : Graph) (t : TOPOS)
    (gradOps : List Nat) (fwId bwId : Nat) (lowerB upperB : Int)
    (h : t.getOrder bwId - lowerB < bwStartingOrder t gradOps) :
    doChainRule g t gradOps fwId bwId lowerB upperB
      = doDirectOrder g t fwId bwId lowerB upperB := by
  unfold doChainRule
  rw [if_pos h]

/-- A concrete two-operation graph: a forward op 0 consumed by a
backward op 1. -/
def exPair : Graph :=
  ⟨[⟨0, ["fw"], "X", [], [], 1⟩, ⟨1, ["grad", "a"], "X", [(0, 0)], [], 1⟩]⟩

/-- Witness for C9: on `exPair` with `lb = 2`, the window's upper edge
`1 - 2 = -1` lies before the boundary (level 1), so chain-rule returns
exactly what direct-order returns. -/
theorem c9_chain_rule_falls_back_to_direct_order_witness :
    ((TOPOS.empty.build exPair).getOrder 1 - 2
        < bwStartingOrder (TOPOS.empty.build exPair) [1])
    ∧ doChainRule exPair (TOPOS.empty.build exPair) [1] 0 1 2 10
        = doDirectOrder exPair (TOPOS.empty.build exPair) 0 1 2 10 :=
  ⟨by decide,
   c9_chain_rule_falls_back_to_direct_order exPair (TOPOS.empty.build exPair)
     [1] 0 1 2 10 (by decide)⟩

theorem scanLevels_sound (g : Graph) (t : TOPOS) (srcId : Nat) :
    ∀ (n : Nat) (i : Int) (a : Nat) (ord : Int),
      scanLevels g t srcId n i = (some a, ord) →
      i - n < ord ∧ ord ≤ i ∧
        (∃ b, t.getOps ord = some b ∧ a ∈ b) ∧ srcId ∈ forwardWalk g a := by
  intro n
  induction n with
  | zero => intro i a ord h; cases h
  | succ n ih =>
    intro i a ord h
    unfold scanLevels at h
    rcases hf : ((t.getOps i).getD []).filter (fun op => srcId ∈ forwardWalk g op)
      with _ | ⟨c, rest⟩
    · rw [hf] at h
      obtain ⟨h1, h2, h3⟩ := ih (i - 1) a ord h
      exact ⟨by omega, by omega, h3⟩
    · rw [hf] at h
      obtain ⟨he1, he2⟩ := Prod.mk.injEq _ _ _ _ ▸ h
      have hac : a = c := by
        have := congrArg Prod.fst h
        simpa using this.symm
      have hoi : ord = i := by
        have := congrArg Prod.snd h
        simpa using this.symm
      subst hac hoi
      have hcmem : a ∈ ((t.getOps ord).getD []).filter
          (fun op => srcId ∈ forwardWalk g op) := by
        rw [hf]; exact List.mem_cons_self _ _
      have hmem := List.mem_filter.mp hcmem
      refine ⟨by omega, le_refl _, ?_, by simpa using hmem.2⟩
      rcases hops : t.getOps ord with _ | b
      · rw [hops] at hmem; simp at hmem
      · exact ⟨b, rfl, by rw [hops] at hmem; simpa using hmem.1⟩

/-- Operations returned by `get_ops` at level `i` have order `i`, for a
freshly built sort. -/
theorem getOps_getOrder {d : DepDict} {t : TOPOS} (hsort : t.topoSort = buildSort d)
    {i : Int} {b : List Nat} {a : Nat} (h : t.getOps i = some b) (ha : a ∈ b) :
    t.getOrder a = i := by
  unfold TOPOS.getOps at h
  split at h
  · rename_i hrange
    have hb : b = batchAt t.topoSort i.toNat := by
      injection h with h'
      exact h'.symm
    subst hb
    rw [hsort] at ha
    have hlev : levelOf (buildSort d) a = some i.toNat :=
      levelOf_buildSort_iff.mpr ha
    unfold TOPOS.getOrder TOPOS.getLevel
    rw [hsort, hlev]
    simp
    omega
  · cases h

theorem doDirectOrder_sound {g : Graph} {t : TOPOS} {d : DepDict}
    {fwId srcId : Nat} {lowerB upperB : Int} {a : Nat} {ord : Int}
    (hlb : 1 ≤ lowerB) (hsort : t.topoSort = buildSort d)
    (h : doDirectOrder g t fwId srcId lowerB upperB = (some a, ord)) :
    t.getOrder fwId < t.getOrder a ∧ t.getOrder a < t.getOrder srcId
      ∧ srcId ∈ forwardWalk g a ∧ t.getOrder a = ord := by
  unfold doDirectOrder at h
  obtain ⟨h1, h2, ⟨b, hops, hab⟩, hreach⟩ :=
    scanLevels_sound g t srcId _ _ a ord h
  have hord := getOps_getOrder hsort hops hab
  refine ⟨?_, ?_, hreach, hord⟩
  · rw [hord]
    have : (((t.getOrder srcId - lowerB)
        - (max (t.getOrder srcId - upperB) (t.getOrder fwId) + 1)).toNat : Int)
        ≤ max ((t.getOrder srcId - lowerB)
            - (max (t.getOrder srcId - upperB) (t.getOrder fwId) + 1)) 0 := by
      omega
    have hmax : max (t.getOrder srcId - upperB) (t.getOrder fwId)
        ≥ t.getOrder fwId := le_max_right _ _
    omega
  · rw [hord]
    omega

theorem finishChain_sound {t : TOPOS} {result : List Nat} {a : Nat} {ord : Int}
    (h : finishChain t result = (some a, ord)) : a ∈ result := by
  unfold finishChain at h
  rcases result with _ | ⟨c, rest⟩
  · cases h
  · have : a = c := by
      have := congrArg Prod.fst h
      simpa using this.symm
    subst this
    exact List.mem_cons_self _ _

theorem doChainRuleGo_sound (g : Graph) (t : TOPOS) (gradOps : List Nat)
    (fwOrder bwOrder : Int) :
    ∀ (fuel : Nat) (lowerB upperB : Int) (q1 q2 closed result : List Nat)
      (a : Nat) (ord : Int),
      (∀ x ∈ result, fwOrder < t.getOrder x ∧ t.getOrder x < bwOrder ∧ x ∈ gradOps) →
      doChainRuleGo g t gradOps fwOrder bwOrder fuel lowerB upperB q1 q2 closed result
        = (some a, ord) →
      fwOrder < t.getOrder a ∧ t.getOrder a < bwOrder ∧ a ∈ gradOps := by
  intro fuel
  induction fuel with
  | zero =>
    intro lowerB upperB q1 q2 closed result a ord hinv h
    exact hinv a (finishChain_sound h)
  | succ fuel ih =>
    intro lowerB upperB q1 q2 closed result a ord hinv h
    rcases q1 with _ | ⟨src, q1'⟩
    · exact hinv a (finishChain_sound h)
    · unfold doChainRuleGo at h
      by_cases hstop : upperB = 0 ∨ lowerB > upperB
      · rw [if_pos hstop] at h
        exact hinv a (finishChain_sound h)
      · rw [if_neg hstop] at h
        simp only [] at h
        set result' :=
          (if lowerB ≤ 0 then
            result ++ (((allConsumingOps g src).filter (fun op => op ∈ gradOps)).filter
              (fun op => fwOrder < t.getOrder op ∧ t.getOrder op < bwOrder)).filter
              (fun op => op ∉ result)
          else result) with hres
        have hinv' : ∀ x ∈ result',
            fwOrder < t.getOrder x ∧ t.getOrder x < bwOrder ∧ x ∈ gradOps := by
          intro x hx
          rw [hres] at hx
          by_cases hleb : lowerB ≤ 0
          · rw [if_pos hleb] at hx
            rcases List.mem_append.mp hx with hx1 | hx1
            · exact hinv x hx1
            · have hx2 := (List.mem_filter.mp hx1).1
              have hord := (List.mem_filter.mp hx2).2
              have hgrad := (List.mem_filter.mp (List.mem_filter.mp hx2).1).2
              simp only [decide_eq_true_eq] at hord hgrad
              exact ⟨hord.1, hord.2, hgrad⟩
          · rw [if_neg hleb] at hx
            exact hinv x hx
        by_cases hq1' : q1' = []
        · rw [if_pos hq1'] at h
          by_cases hre : result' ≠ []
          · rw [if_pos hre] at h
            exact hinv' a (finishChain_sound h)
          · rw [if_neg hre] at h
            exact ih _ _ _ _ _ _ a ord hinv' h
        · rw [if_neg hq1'] at h
          exact ih _ _ _ _ _ _ a ord hinv' h

/-- C2 (amended): whenever an anchor is returned with `lb ≥ 1` against a
freshly built sort, `level(producer) < level(anchor) < level(consumer)`
holds under both strategies; under the direct-order strategy the
consumer is additionally forward-reachable from the anchor, while under
the chain-rule strategy the anchor is either produced by the
direct-order fallback (and is then an operation the consumer is
forward-reachable from) or is a backward operation found by the layered
expansion, from which the consumer need NOT be forward-reachable. -/
theorem c2_anchor_level_bounds_and_direct_order_reachability
    (g : Graph) (t : TOPOS) (d : DepDict) (gradOps : List Nat)
    (fwId bwId : Nat) (lowerB upperB : Int)
    (hlb : 1 ≤ lowerB) (hsort : t.topoSort = buildSort d) :
    (∀ (a : Nat) (ord : Int),
      doDirectOrder g t fwId bwId lowerB upperB = (some a, ord) →
      t.getOrder fwId < t.getOrder a ∧ t.getOrder a < t.getOrder bwId
        ∧ bwId ∈ forwardWalk g a)
    ∧ (∀ (a : Nat) (ord : Int),
      doChainRule g t gradOps fwId bwId lowerB upperB = (some a, ord) →
      t.getOrder fwId < t.getOrder a ∧ t.getOrder a < t.getOrder bwId
        ∧ (a ∈ gradOps ∨ bwId ∈ forwardWalk g a)) := by
  constructor
  · intro a ord h
    obtain ⟨h1, h2, h3, _⟩ := doDirectOrder_sound hlb hsort h
    exact ⟨h1, h2, h3⟩
  · intro a ord h
    unfold doChainRule at h
    by_cases hcond : t.getOrder bwId - lowerB < bwStartingOrder t gradOps
    · rw [if_pos hcond] at h
      obtain ⟨h1, h2, h3, _⟩ := doDirectOrder_sound hlb hsort h
      exact ⟨h1, h2, Or.inr h3⟩
    · rw [if_neg hcond] at h
      obtain ⟨h1, h2, h3⟩ := doChainRuleGo_sound g t gradOps
        (t.getOrder fwId) (t.getOrder bwId) _ lowerB upperB
        [fwId] [] [] [] a ord (by intro x hx; cases hx) h
      exact ⟨h1, h2, Or.inl h3⟩

/-- A concrete four-operation chain `0 → 1 → 2 → 3` with 3 backward. -/
def exChain4 : Graph :=
  ⟨[⟨0, ["p"], "X", [], [], 1⟩, ⟨1, ["q"], "X", [(0, 0)], [], 1⟩,
    ⟨2, ["r"], "X", [(1, 0)], [], 1⟩, ⟨3, ["grad", "s"], "X", [(2, 0)], [], 1⟩]⟩

/-- Witness for C2 (amended): on `exChain4`, direct-order from producer 0
to consumer 3 returns anchor 1 at level 1, and the level bounds and
reachability facts hold there. -/
theorem c2_anchor_level_bounds_witness :
    (1 ≤ (1 : Int))
    ∧ (TOPOS.empty.build exChain4).topoSort = buildSort (depDict exChain4)
    ∧ doDirectOrder exChain4 (TOPOS.empty.build exChain4) 0 3 1 10 = (some 1, 1)
    ∧ ((TOPOS.empty.build exChain4).getOrder 0
          < (TOPOS.empty.build exChain4).getOrder 1
        ∧ (TOPOS.empty.build exChain4).getOrder 1
          < (TOPOS.empty.build exChain4).getOrder 3
        ∧ 3 ∈ forwardWalk exChain4 1) :=
  ⟨by decide, rfl, by decide,
   (c2_anchor_level_bounds_and_direct_order_reachability exChain4
      (TOPOS.empty.build exChain4) (depDict exChain4) [3] 0 3 1 10
      (by decide) rfl).1 1 1 (by decide)⟩

/-- A concrete graph where the chain-rule anchor does not reach the
consumer: `0 → 1 → 2` (2 backward, a dead end) and `0 → 3 → 4 → 5`
(5 backward, the consumer). -/
def exSplit : Graph :=
  ⟨[⟨0, ["p"], "X", [], [], 1⟩,
    ⟨1, ["f"], "X", [(0, 0)], [], 1⟩,
    ⟨2, ["grad", "a"], "X", [(1, 0)], [], 1⟩,
    ⟨3, ["g"], "X", [(0, 0)], [], 1⟩,
    ⟨4, ["h"], "X", [(3, 0)], [], 1⟩,
    ⟨5, ["grad", "b"], "X", [(4, 0)], [], 1⟩]⟩

/-- C2 (counterexample): on `exSplit`, the chain-rule strategy anchors
the relocate-in for consumer 5 (level 3) at operation 2 (level 2), which
satisfies the level bounds but from which the consumer 5 is NOT
forward-reachable — refuting the claim that whenever an anchor is
returned the consumer is forward-reachable from it. -/
theorem c2_counterexample :
    doChainRule exSplit (TOPOS.empty.build exSplit) [2, 5] 0 5 1 10
      = (some 2, 2)
    ∧ 5 ∉ forwardWalk exSplit 2 := by
  decide

/-! ## Anchor fallbacks (`find_nco`, `find_inscope`) and `add_ctrld` -/

/-- The `min_order = self.topo_sort.size + 1; earliest_op = None;
for op in ops: if order < min_order: ...` loop shared by `find_inscope`
and the fusion branch of `insert_swnodes`: pick the operation with the
smallest order. -/
def earliestOp (t : TOPOS) : List Nat → Option Nat × Int → Option Nat × Int
  | [], acc => acc
  | op :: rest, (best, minOrder) =>
    if t.getOrder op < minOrder then earliestOp t rest (some op, t.getOrder op)
    else earliestOp t rest (best, minOrder)

/-- The selection loop of `find_nco`: like `earliestOp` but skipping
operations with a negative (unassigned) order. -/
def ncoFold (t : TOPOS) : List Nat → Option Nat × Int → Option Nat × Int
  | [], acc => acc
  | op :: rest, (best, minOrder) =>
    if t.getOrder op < 0 then ncoFold t rest (best, minOrder)
    else if t.getOrder op < minOrder then ncoFold t rest (some op, t.getOrder op)
    else ncoFold t rest (best, minOrder)

/-- The common-descendant candidate set of `find_nco`: everything
forward-reachable from the producer's non-backward consumers,
intersected with everything forward-reachable (exclusively) from the
consumer. -/
def ncoCommon (g : Graph) (gradOps : List Nat) (fwId bwId : Nat) : List Nat :=
  let frontier := (allConsumingOps g fwId).filter (fun op => op ∉ gradOps)
  let fwReachable := (frontier.flatMap (fun op1 => forwardWalk g op1)).dedup
  let bwReachable := forwardWalkEx g bwId
  fwReachable.filter (fun op => op ∈ bwReachable)

/-- `LMS.find_nco`: the nearest common op in the reachable sets of the
two given ops — the member of `ncoCommon` with the smallest
(non-negative) order. -/
def findNco (g : Graph) (t : TOPOS) (gradOps : List Nat) (fwId bwId : Nat) :
    Option Nat :=
  (ncoFold t (ncoCommon g gradOps fwId bwId) (none, (t.size : Int) + 1)).1

/-- `scope.rsplit('/', 1)[0]` on a slash-delimited name: drop the last
component; a single-component name is its own parent. -/
def parentScope (s : List String) : List String :=
  if s.length ≤ 1 then s else s.dropLast

/-- `ge.filter_ops_from_regex(..., "^scope")`: the operations whose name
lies under the given scope path. -/
def scopeOps (g : Graph) (scope : List String) : List Nat :=
  (g.ops.filter (fun o => scope.isPrefixOf o.name)).map Oper.id

/-- The `ops1` candidate set of one `find_inscope` iteration: in-scope
ops, minus the already-visited ones, restricted to backward ops with
positive order ("ops in chain rule"). -/
def inscopeCandidates (g : Graph) (t : TOPOS) (gradOps : List Nat)
    (higher : List String) (visited : List Nat) : List Nat :=
  (((scopeOps g higher).filter (fun op => op ∉ visited)).filter
    (fun op => op ∈ gradOps)).filter (fun op => 0 < t.getOrder op)

/-- The `while current_scope != higher_scope` loop of `LMS.find_inscope`:
at each enclosing scope, search the not-yet-visited backward operations
with positive order for the earliest one; ascend one scope on failure.
Each iteration shortens the scope by one component, so `fuel =
scope.length` suffices (`findInscope` supplies it). -/
def findInscopeAux (g : Graph) (t : TOPOS) (gradOps : List Nat) :
    Nat → List String → List Nat → Option Nat
  | 0, _, _ => none
  | fuel + 1, current, visited =>
    if current = parentScope current then none
    else
      match (earliestOp t
          (inscopeCandidates g t gradOps (parentScope current) visited)
          (none, (t.size : Int) + 1)).1 with
      | some e => some e
      | none =>
        findInscopeAux g t gradOps fuel (parentScope current)
          (visited ++ (scopeOps g (parentScope current)).filter
            (fun op => op ∉ visited))

/-- `LMS.find_inscope(scope)`. -/
def findInscope (g : Graph) (t : TOPOS) (gradOps : List Nat)
    (scope : List String) : Option Nat :=
  findInscopeAux g t gradOps scope.length scope []

/-- `CTRLD_Strategy`. -/
inductive CTRLDStrategy where
  | chainRule
  | directOrder
deriving DecidableEq, Repr

/-- `ge.add_control_inputs(dest, ctl)`: add a control-input edge. -/
def addCtrlInput (g : Graph) (destId ctl : Nat) : Graph :=
  ⟨g.ops.map (fun o =>
    if o.id = destId then
      { o with ctrlInputs := o.ctrlInputs ++ [ctl] } else o)⟩

/-- The scope path of an operation (used by `find_inscope(bw_op.name)`). -/
def scopeOf (g : Graph) (opId : Nat) : List String :=
  match opById g opId with
  | some o => o.name
  | none => []

/-- The anchor computed by `add_ctrld` for a resolved consumer: reset
`lb` to 1 when it is out of range, then run the configured strategy. -/
def anchorResult (g : Graph) (t : TOPOS) (gradOps : List Nat)
    (strategy : CTRLDStrategy) (fwId bwId : Nat) (lb ub : Int) :
    Option Nat × Int :=
  let lb' := if t.getOrder bwId - lb ≤ t.getOrder fwId then 1 else lb
  match strategy with
  | CTRLDStrategy.chainRule => doChainRule g t gradOps fwId bwId lb' ub
  | CTRLDStrategy.directOrder => doDirectOrder g t fwId bwId lb' ub

/-- The second half of `LMS.add_ctrld`, after the consumer has been
resolved: attach the found anchor (if any) as a control input of the
swap-in operation. -/
def attachCtrld (g : Graph) (t : TOPOS) (gradOps : List Nat)
    (strategy : CTRLDStrategy) (fwId bwId swapinId : Nat) (lb ub : Int) :
    Graph :=
  match (anchorResult g t gradOps strategy fwId bwId lb ub).1 with
  | some c => addCtrlInput g swapinId c
  | none => g

/-- `LMS.add_ctrld`: when the consumer has no assigned level, substitute
the nearest common descendant, else an in-scope backward op, else give
up (no control dependency — the swap-in stays ungated). -/
def addCtrld (g : Graph) (t : TOPOS) (gradOps : List Nat)
    (strategy : CTRLDStrategy) (fwId bwId swapinId : Nat) (lb ub : Int) :
    Graph :=
  if t.getOrder bwId < 0 then
    match findNco g t gradOps fwId bwId with
    | some n => attachCtrld g t gradOps strategy fwId n swapinId lb ub
    | none =>
      match findInscope g t gradOps (scopeOf g bwId) with
      | some s => attachCtrld g t gradOps strategy fwId s swapinId lb ub
      | none => g
  else attachCtrld g t gradOps strategy fwId bwId swapinId lb ub

/-! ### Theorems for C7 -/

theorem ncoFold_cons_neg {t : TOPOS} {op : Nat} {rest : List Nat}
    {best : Option Nat} {minOrder : Int} (h : t.getOrder op < 0) :
    ncoFold t (op :: rest) (best, minOrder) = ncoFold t rest (best, minOrder) := by
  show (if t.getOrder op < 0 then ncoFold t rest (best, minOrder)
        else if t.getOrder op < minOrder then ncoFold t rest (some op, t.getOrder op)
        else ncoFold t rest (best, minOrder)) = _
  rw [if_pos h]

theorem ncoFold_cons_new {t : TOPOS} {op : Nat} {rest : List Nat}
    {best : Option Nat} {minOrder : Int} (h : ¬ t.getOrder op < 0)
    (h2 : t.getOrder op < minOrder) :
    ncoFold t (op :: rest) (best, minOrder)
      = ncoFold t rest (some op, t.getOrder op) := by
  show (if t.getOrder op < 0 then ncoFold t rest (best, minOrder)
        else if t.getOrder op < minOrder then ncoFold t rest (some op, t.getOrder op)
        else ncoFold t rest (best, minOrder)) = _
  rw [if_neg h, if_pos h2]

theorem ncoFold_cons_keep {t : TOPOS} {op : Nat} {rest : List Nat}
    {best : Option Nat} {minOrder : Int} (h : ¬ t.getOrder op < 0)
    (h2 : ¬ t.getOrder op < minOrder) :
    ncoFold t (op :: rest) (best, minOrder) = ncoFold t rest (best, minOrder) := by
  show (if t.getOrder op < 0 then ncoFold t rest (best, minOrder)
        else if t.getOrder op < minOrder then ncoFold t rest (some op, t.getOrder op)
        else ncoFold t rest (best, minOrder)) = _
  rw [if_neg h, if_neg h2]

theorem earliestOp_cons_new {t : TOPOS} {op : Nat} {rest : List Nat}
    {best : Option Nat} {minOrder : Int} (h : t.getOrder op < minOrder) :
    earliestOp t (op :: rest) (best, minOrder)
      = earliestOp t rest (some op, t.getOrder op) := by
  show (if t.getOrder op < minOrder then earliestOp t rest (some op, t.getOrder op)
        else earliestOp t rest (best, minOrder)) = _
  rw [if_pos h]

theorem earliestOp_cons_keep {t : TOPOS} {op : Nat} {rest : List Nat}
    {best : Option Nat} {minOrder : Int} (h : ¬ t.getOrder op < minOrder) :
    earliestOp t (op :: rest) (best, minOrder)
      = earliestOp t rest (best, minOrder) := by
  show (if t.getOrder op < minOrder then earliestOp t rest (some op, t.getOrder op)
        else earliestOp t rest (best, minOrder)) = _
  rw [if_neg h]

theorem ncoFold_spec (t : TOPOS) :
    ∀ (ops : List Nat) (best : Option Nat) (minOrder : Int),
      (∀ b, best = some b → minOrder = t.getOrder b ∧ 0 ≤ minOrder) →
      (∀ n, (ncoFold t ops (best, minOrder)).1 = some n →
        (ncoFold t ops (best, minOrder)).2 = t.getOrder n
        ∧ 0 ≤ (ncoFold t ops (best, minOrder)).2
        ∧ (n ∈ ops ∨ best = some n))
      ∧ (ncoFold t ops (best, minOrder)).2 ≤ minOrder
      ∧ (∀ x ∈ ops, 0 ≤ t.getOrder x →
          (ncoFold t ops (best, minOrder)).2 ≤ t.getOrder x) := by
  intro ops
  induction ops with
  | nil =>
    intro best minOrder hinv
    refine ⟨?_, le_refl _, ?_⟩
    · intro n hn
      obtain ⟨h1, h2⟩ := hinv n hn
      exact ⟨h1, h2, Or.inr hn⟩
    · intro x hx; cases hx
  | cons op rest ih =>
    intro best minOrder hinv
    by_cases hneg : t.getOrder op < 0
    · rw [ncoFold_cons_neg hneg]
      obtain ⟨ih1, ih2, ih3⟩ := ih best minOrder hinv
      refine ⟨?_, ih2, ?_⟩
      · intro n hn
        obtain ⟨h1, h2, h3⟩ := ih1 n hn
        refine ⟨h1, h2, ?_⟩
        rcases h3 with h3 | h3
        · exact Or.inl (List.mem_cons_of_mem _ h3)
        · exact Or.inr h3
      · intro x hx hxo
        rcases List.mem_cons.mp hx with hx1 | hx1
        · subst hx1; omega
        · exact ih3 x hx1 hxo
    · by_cases hlt : t.getOrder op < minOrder
      · rw [ncoFold_cons_new hneg hlt]
        have hinv' : ∀ b, (some op : Option Nat) = some b →
            t.getOrder op = t.getOrder b ∧ 0 ≤ t.getOrder op := by
          intro b hb
          have : op = b := by injection hb
          subst this
          exact ⟨rfl, by omega⟩
        obtain ⟨ih1, ih2, ih3⟩ := ih (some op) (t.getOrder op) hinv'
        refine ⟨?_, by omega, ?_⟩
        · intro n hn
          obtain ⟨h1, h2, h3⟩ := ih1 n hn
          refine ⟨h1, h2, ?_⟩
          rcases h3 with h3 | h3
          · exact Or.inl (List.mem_cons_of_mem _ h3)
          · have : op = n := by injection h3
            exact Or.inl (this ▸ List.mem_cons_self _ _)
        · intro x hx hxo
          rcases List.mem_cons.mp hx with hx1 | hx1
          · subst hx1; exact ih2
          · exact ih3 x hx1 hxo
      · rw [ncoFold_cons_keep hneg hlt]
        obtain ⟨ih1, ih2, ih3⟩ := ih best minOrder hinv
        refine ⟨?_, ih2, ?_⟩
        · intro n hn
          obtain ⟨h1, h2, h3⟩ := ih1 n hn
          refine ⟨h1, h2, ?_⟩
          rcases h3 with h3 | h3
          · exact Or.inl (List.mem_cons_of_mem _ h3)
          · exact Or.inr h3
        · intro x hx hxo
          rcases List.mem_cons.mp hx with hx1 | hx1
          · subst hx1; omega
          · exact ih3 x hx1 hxo

/-- `find_nco` returns a member of the common-descendant set with the
minimum (assigned) order. -/
theorem findNco_spec {g : Graph} {t : TOPOS} {gradOps : List Nat}
    {fwId bwId n : Nat} (h : findNco g t gradOps fwId bwId = some n) :
    n ∈ ncoCommon g gradOps fwId bwId ∧ 0 ≤ t.getOrder n
    ∧ ∀ x ∈ ncoCommon g gradOps fwId bwId, 0 ≤ t.getOrder x →
        t.getOrder n ≤ t.getOrder x := by
  obtain ⟨h1, _, h3⟩ := ncoFold_spec t (ncoCommon g gradOps fwId bwId)
    none ((t.size : Int) + 1) (by intro b hb; cases hb)
  obtain ⟨he, hpos, hmem⟩ := h1 n h
  rcases hmem with hmem | hmem
  · exact ⟨hmem, he ▸ hpos, fun x hx hxo => he ▸ h3 x hx hxo⟩
  · cases hmem

theorem earliestOp_spec (t : TOPOS) :
    ∀ (ops : List Nat) (best : Option Nat) (minOrder : Int),
      (∀ b, best = some b → minOrder = t.getOrder b) →
      (∀ n, (earliestOp t ops (best, minOrder)).1 = some n →
        (earliestOp t ops (best, minOrder)).2 = t.getOrder n
        ∧ (n ∈ ops ∨ best = some n))
      ∧ (earliestOp t ops (best, minOrder)).2 ≤ minOrder
      ∧ (∀ x ∈ ops, (earliestOp t ops (best, minOrder)).2 ≤ t.getOrder x) := by
  intro ops
  induction ops with
  | nil =>
    intro best minOrder hinv
    refine ⟨?_, le_refl _, ?_⟩
    · intro n hn
      exact ⟨hinv n hn, Or.inr hn⟩
    · intro x hx; cases hx
  | cons op rest ih =>
    intro best minOrder hinv
    by_cases hlt : t.getOrder op < minOrder
    · rw [earliestOp_cons_new hlt]
      have hinv' : ∀ b, (some op : Option Nat) = some b →
          t.getOrder op = t.getOrder b := by
        intro b hb
        have : op = b := by injection hb
        subst this; rfl
      obtain ⟨ih1, ih2, ih3⟩ := ih (some op) (t.getOrder op) hinv'
      refine ⟨?_, by omega, ?_⟩
      · intro n hn
        obtain ⟨h1, h3⟩ := ih1 n hn
        refine ⟨h1, ?_⟩
        rcases h3 with h3 | h3
        · exact Or.inl (List.mem_cons_of_mem _ h3)
        · have : op = n := by injection h3
          exact Or.inl (this ▸ List.mem_cons_self _ _)
      · intro x hx
        rcases List.mem_cons.mp hx with hx1 | hx1
        · subst hx1; exact ih2
        · exact ih3 x hx1
    · rw [earliestOp_cons_keep hlt]
      obtain ⟨ih1, ih2, ih3⟩ := ih best minOrder hinv
      refine ⟨?_, ih2, ?_⟩
      · intro n hn
        obtain ⟨h1, h3⟩ := ih1 n hn
        refine ⟨h1, ?_⟩
        rcases h3 with h3 | h3
        · exact Or.inl (List.mem_cons_of_mem _ h3)
        · exact Or.inr h3
      · intro x hx
        rcases List.mem_cons.mp hx with hx1 | hx1
        · subst hx1; omega
        · exact ih3 x hx1

/-- `find_inscope` only ever returns a backward operation with positive
order. -/
theorem findInscopeAux_spec (g : Graph) (t : TOPOS) (gradOps : List Nat) :
    ∀ (fuel : Nat) (current : List String) (visited : List Nat) (e : Nat),
      findInscopeAux g t gradOps fuel current visited = some e →
      e ∈ gradOps ∧ 0 < t.getOrder e := by
  intro fuel
  induction fuel with
  | zero => intro current visited e h; cases h
  | succ fuel ih =>
    intro current visited e h
    unfold findInscopeAux at h
    by_cases hcur : current = parentScope current
    · rw [if_pos hcur] at h; cases h
    · rw [if_neg hcur] at h
      rcases hE : (earliestOp t
          (inscopeCandidates g t gradOps (parentScope current) visited)
          (none, (t.size : Int) + 1)).1 with _ | e'
      · rw [hE] at h
        simp only [] at h
        exact ih (parentScope current) _ e h
      · rw [hE] at h
        simp only [] at h
        have he' : e' = e := by injection h
        subst he'
        obtain ⟨h1, _, _⟩ := earliestOp_spec t
          (inscopeCandidates g t gradOps (parentScope current) visited)
          none ((t.size : Int) + 1) (by intro b hb; cases hb)
        obtain ⟨_, hmem⟩ := h1 e' hE
        rcases hmem with hmem | hmem
        · have hgrad := (List.mem_filter.mp (List.mem_filter.mp hmem).1).2
          have hord := (List.mem_filter.mp hmem).2
          simp only [decide_eq_true_eq] at hgrad hord
          exact ⟨hgrad, hord⟩
        · cases hmem

theorem findInscope_spec {g : Graph} {t : TOPOS} {gradOps : List Nat}
    {scope : List String} {e : Nat}
    (h : findInscope g t gradOps scope = some e) :
    e ∈ gradOps ∧ 0 < t.getOrder e :=
  findInscopeAux_spec g t gradOps scope.length scope [] e h

/-- C7: when the consumer passed to `add_ctrld` has no assigned level,
the anchor search first substitutes the nearest common descendant (a
leveled member of the intersection of the forward-reachable sets,
minimal in level among the leveled members); if none exists it walks
the consumer's enclosing scopes for an earliest positively-leveled
backward op; if both fail, no anchor is attached — the graph is
returned unchanged (the relocate-in proceeds ungated, no error). -/
theorem c7_unleveled_consumer_fallback_cascade (g : Graph) (t : TOPOS)
    (gradOps : List Nat) (strategy : CTRLDStrategy)
    (fwId bwId swapinId : Nat) (lb ub : Int)
    (h : t.getOrder bwId < 0) :
    (∀ n, findNco g t gradOps fwId bwId = some n →
      addCtrld g t gradOps strategy fwId bwId swapinId lb ub
        = attachCtrld g t gradOps strategy fwId n swapinId lb ub
      ∧ n ∈ ncoCommon g gradOps fwId bwId
      ∧ 0 ≤ t.getOrder n
      ∧ ∀ x ∈ ncoCommon g gradOps fwId bwId, 0 ≤ t.getOrder x →
          t.getOrder n ≤ t.getOrder x)
    ∧ (findNco g t gradOps fwId bwId = none →
       ∀ s, findInscope g t gradOps (scopeOf g bwId) = some s →
        addCtrld g t gradOps strategy fwId bwId swapinId lb ub
          = attachCtrld g t gradOps strategy fwId s swapinId lb ub
        ∧ s ∈ gradOps ∧ 0 < t.getOrder s)
    ∧ (findNco g t gradOps fwId bwId = none →
       findInscope g t gradOps (scopeOf g bwId) = none →
        addCtrld g t gradOps strategy fwId bwId swapinId lb ub = g) := by
  refine ⟨?_, ?_, ?_⟩
  · intro n hn
    obtain ⟨h1, h2, h3⟩ := findNco_spec hn
    refine ⟨?_, h1, h2, h3⟩
    unfold addCtrld
    rw [if_pos h, hn]
  · intro hn s hs
    obtain ⟨h1, h2⟩ := findInscope_spec hs
    refine ⟨?_, h1, h2⟩
    unfold addCtrld
    rw [if_pos h, hn, hs]
  · intro hn hs
    unfold addCtrld
    rw [if_pos h, hn, hs]

/-- A concrete graph with an unleveled backward operation 3 whose output
feeds operation 2, which is also downstream of the producer 0. -/
def exNco : Graph :=
  ⟨[⟨0, ["p"], "X", [], [], 1⟩, ⟨1, ["f"], "X", [(0, 0)], [], 1⟩,
    ⟨2, ["g"], "X", [(1, 0), (3, 0)], [], 1⟩,
    ⟨3, ["grad", "b"], "X", [], [], 1⟩]⟩

/-- A leveled order for `exNco` in which op 3 has no level (as happens
when a backward op is discovered by scope-name heuristics rather than
reachability). -/
def exNcoTopos : TOPOS := ⟨[[0], [1], [2]]⟩

/-- Witness for C7: on `exNco`, the consumer 3 is unleveled and the
nearest common descendant 2 is substituted for it. -/
theorem c7_unleveled_consumer_fallback_cascade_witness :
    exNcoTopos.getOrder 3 < 0
    ∧ findNco exNco exNcoTopos [3] 0 3 = some 2
    ∧ (addCtrld exNco exNcoTopos [3] CTRLDStrategy.directOrder 0 3 9 1 10
        = attachCtrld exNco exNcoTopos [3] CTRLDStrategy.directOrder 0 2 9 1 10
      ∧ 2 ∈ ncoCommon exNco [3] 0 3
      ∧ 0 ≤ exNcoTopos.getOrder 2
      ∧ ∀ x ∈ ncoCommon exNco [3] 0 3, 0 ≤ exNcoTopos.getOrder x →
          exNcoTopos.getOrder 2 ≤ exNcoTopos.getOrder x) :=
  ⟨by decide, by decide,
   (c7_unleveled_consumer_fallback_cascade exNco exNcoTopos [3]
      CTRLDStrategy.directOrder 0 3 9 1 10 (by decide)).1 2 (by decide)⟩

/-! ## The swap scheduler (`insert_swnodes`, `do_action`, `run`) -/

/-- The type tags unconditionally added to `excl_types` by
`LMS.__init__` ("Operations with these types will be ignored"). -/
def atomicTypes : List String :=
  ["Const", "Mul", "Add", "Identity", "Assign", "VariableV2",
   "Reshape", "Shape", "ShapeN"]

/-- A fresh operation id for a node created by `tf.identity`. -/
def freshId (g : Graph) : Nat := (g.ops.map Oper.id).foldr max 0 + 1

/-- A new identity (relocate) operation on the host device consuming the
given tensor (`tf.identity(ts0)` under `tf.device(cpu_device)`; node
creation itself is external collaborator work, modelled from the spec's
contract "create a copy/identity operation pinned to a named device"). -/
def mkIdentity (g : Graph) (tr : TensorRef) : Oper :=
  ⟨freshId g, ["lms_swap"], "Identity", [tr], [], 1⟩

/-- Redirect one data-input edge of an operation by positional index
(spec contract: "redirect a specific input ... edge by positional index
to a new endpoint"; `connect_ops(..., remap_inputs=True, idx=...)`). -/
def setInputAt (g : Graph) (destId pos : Nat) (tr : TensorRef) : Graph :=
  ⟨g.ops.map (fun o =>
    if o.id = destId then { o with inputs := o.inputs.set pos tr } else o)⟩

/-- `ge.sgv(op).input_index(ts)`: the positional index of a tensor among
an operation's inputs (first occurrence). -/
def inputIndex (tr : TensorRef) : List TensorRef → Nat
  | [] => 0
  | x :: rest => if x = tr then 0 else inputIndex tr rest + 1

theorem inputIndex_lt_length {tr : TensorRef} :
    ∀ {l : List TensorRef}, tr ∈ l → inputIndex tr l < l.length := by
  intro l
  induction l with
  | nil => intro h; cases h
  | cons x rest ih =>
    intro h
    by_cases hx : x = tr
    · show (if x = tr then 0 else inputIndex tr rest + 1) < rest.length + 1
      rw [if_pos hx]
      omega
    · have hm : tr ∈ rest := by
        rcases List.mem_cons.mp h with h1 | h1
        · exact absurd h1.symm hx
        · exact h1
      show (if x = tr then 0 else inputIndex tr rest + 1) < rest.length + 1
      rw [if_neg hx]
      exact Nat.succ_lt_succ (ih hm)

/-- `ge.filter_ts_from_regex(dest_op, src_op.name)[0]`: the first input
tensor of `dest` produced by `src` (tensor names are
`<src name>:<index>`, so the regex matches exactly the tensors produced
by `src`). -/
def tsFromSrc (g : Graph) (destId srcId : Nat) : Option TensorRef :=
  match opById g destId with
  | some o => o.inputs.find? (fun tr => tr.1 = srcId)
  | none => none

/-- `LMS.add_swapout`: create the relocate-out identity consuming the
producer's output that `dest` reads (`connect_ops(src, swap_out,
remap_outputs=True, ...)` rewires the new node's input to that output,
which `tf.identity(ts0)` already consumes). Returns the new graph and
the id of the swap-out node (`none` is unreachable: `dest` is a
consumer of one of `src`'s outputs). -/
def addSwapout (g : Graph) (srcId destId : Nat) : Graph × Option Nat :=
  match tsFromSrc g destId srcId with
  | none => (g, none)
  | some ts0 =>
    let so := mkIdentity g ts0
    (⟨g.ops ++ [so]⟩, some so.id)

/-- `LMS.add_swapin`: create the relocate-in identity consuming the
swap-out's output (`connect_ops(swapout_op, swap_in.op, ...)`), and
redirect `dest`'s input that used to read the producer's tensor to the
new node (`connect_ops(swap_in.op, dest_op, remap_inputs=True,
idx=input_idx)`). -/
def addSwapin (g : Graph) (swapoutId srcId destId : Nat) : Graph × Option Nat :=
  match tsFromSrc g destId srcId, opById g destId with
  | some ts0, some destOp =>
    let si := mkIdentity g (swapoutId, 0)
    let g1 : Graph := ⟨g.ops ++ [si]⟩
    (setInputAt g1 destId (inputIndex ts0 destOp.inputs) (si.id, 0), some si.id)
  | _, _ => (g, none)

/-- `LMS._get_branch_ops`: the forward siblings whose order exceeds the
minimum order among the given ops plus the threshold. -/
def getBranchOps (t : TOPOS) (within : List Nat) (threshold : Int) : List Nat :=
  match within.map t.getOrder with
  | [] => []
  | o :: os =>
    let minOrder := os.foldl min o + threshold
    within.filter (fun op => minOrder < t.getOrder op)

/-- The mutable state of one `LMS.run` pass. -/
structure LMSState where
  graph : Graph
  exclOps : List Nat
  inclOps : List Nat
  gradOps : List Nat
  topo : TOPOS
  strategy : CTRLDStrategy
  lb : Int
  ub : Int
  nTensors : Nat
  fuse : Bool
  swapBranches : Bool
  branchThreshold : Int
  incpuCount : Nat
deriving DecidableEq, Repr

/-- The `for op in fuse_bw_frontier_ops` loop: redirect each shared
consumer's input from the producer's tensor to the shared relocate-in. -/
def redirectAll (srcId siId : Nat) : Graph → List Nat → Graph
  | g, [] => g
  | g, destId :: rest =>
    let g1 := match tsFromSrc g destId srcId, opById g destId with
      | some ts0, some destOp =>
          setInputAt g destId (inputIndex ts0 destOp.inputs) (siId, 0)
      | _, _ => g
    redirectAll srcId siId g1 rest

/-- The `fuse_bw_frontier_ops` set: backward consumers with positive
order. -/
def fuseBwFrontier (t : TOPOS) (bwF : List Nat) : List Nat :=
  bwF.filter (fun op => 0 < t.getOrder op)

/-- The `for dest_op in bw_frontier_ops` loop at the end of
`insert_swnodes`: one relocate-in per remaining backward consumer, each
anchored via `add_ctrld`. -/
def individualSwapins (srcId soId : Nat) : LMSState → List Nat → LMSState
  | st, [] => st
  | st, destId :: rest =>
    match addSwapin st.graph soId srcId destId with
    | (g1, some siId) =>
      let g2 := addCtrld g1 st.topo st.gradOps st.strategy srcId destId siId
        st.lb st.ub
      individualSwapins srcId soId
        { st with graph := g2, exclOps := st.exclOps ++ [siId] } rest
    | (g1, none) => individualSwapins srcId soId { st with graph := g1 } rest

/-- The state after the fusion branch of `insert_swnodes`: one shared
relocate-in consuming the swap-out; every positive-order backward
consumer's input redirected to it; the shared node excluded; and the
anchor attached once via the earliest (smallest-order) shared consumer
(`if earliest_op: self.add_ctrld(...)`). -/
def fusedState (st : LMSState) (srcId soId : Nat) (bwF : List Nat) :
    LMSState :=
  let fuseOps := fuseBwFrontier st.topo bwF
  let si := mkIdentity st.graph (soId, 0)
  let g1 : Graph := ⟨st.graph.ops ++ [si]⟩
  let g2 := redirectAll srcId si.id g1 fuseOps
  let g3 := match (earliestOp st.topo fuseOps
      (none, (st.topo.size : Int) + 1)).1 with
    | some e => addCtrld g2 st.topo st.gradOps st.strategy srcId e si.id
        st.lb st.ub
    | none => g2
  { st with graph := g3, exclOps := st.exclOps ++ [si.id] }

/-- The relocate-in phase of `insert_swnodes` for one tensor: the fusion
branch (one shared relocate-in for the positive-order backward
consumers, anchored once via the earliest of them) followed by
individual relocate-ins for the remaining consumers. -/
def processSwapins (srcId soId sampleId : Nat) (st : LMSState)
    (bwF : List Nat) : LMSState :=
  if st.fuse ∧ fuseBwFrontier st.topo bwF ≠ [] then
    individualSwapins srcId soId (fusedState st srcId soId bwF)
      (bwF.filter (fun op => op ∉ fuseBwFrontier st.topo bwF))
  else individualSwapins srcId soId st bwF

/-- The backward-consumer set of a tensor as computed by
`insert_swnodes`: direct backward consumers, plus far-enough forward
branches when `swap_branches` is on, minus dead ends (ops with no
forward-reachable successors). -/
def bwFrontierOf (st : LMSState) (tr : TensorRef) : List Nat :=
  let frontier := consumingOps st.graph tr
  let bwF := frontier.filter (fun op => op ∈ st.gradOps)
  let bwF2 :=
    if st.swapBranches then
      bwF ++ (getBranchOps st.topo (frontier.filter (fun op => op ∉ st.gradOps))
        st.branchThreshold).filter (fun op => op ∉ bwF)
    else bwF
  bwF2.filter (fun op => forwardWalkEx st.graph op ≠ [])

/-- The body of the `for t in src_op.outputs` loop of `insert_swnodes`
for one tensor: compute the backward consumers; if any, create the
relocate-out (`sample_op = next(iter(bw_frontier_ops))` picks the
first), count it, and create the relocate-ins. -/
def processTensor (st : LMSState) (srcId : Nat) (tr : TensorRef) : LMSState :=
  match bwFrontierOf st tr with
  | [] => st
  | sample :: _ =>
    match addSwapout st.graph srcId sample with
    | (g1, some soId) =>
      processSwapins srcId soId sample
        { st with
          graph := g1
          exclOps := st.exclOps ++ [soId]
          incpuCount := st.incpuCount + 1 }
        (bwFrontierOf st tr)
    | (_, none) => st

/-- The `for t in src_op.outputs` loop with the swap cap check
(`if (self.n_tensors > 0) and (self.incpu_count >= self.n_tensors):
return`). -/
def insertSwnodesLoop (srcId : Nat) : LMSState → List TensorRef → LMSState
  | st, [] => st
  | st, tr :: rest =>
    if 0 < st.nTensors ∧ st.nTensors ≤ st.incpuCount then st
    else insertSwnodesLoop srcId (processTensor st srcId tr) rest

/-- `LMS.insert_swnodes`: skip excluded ops, respect inclusion mode,
then process every output tensor. -/
def insertSwnodes (st : LMSState) (srcId : Nat) : LMSState :=
  if srcId ∈ st.exclOps then st
  else if st.inclOps ≠ [] ∧ srcId ∉ st.inclOps then st
  else
    match opById st.graph srcId with
    | none => st
    | some o => insertSwnodesLoop srcId st (outputsOf o)

/-- `LMS.do_action`: breadth-first traversal from the seed ops over
non-backward consumers, computing each op's frontier before mutating
the graph. Fuel bounds the number of pops: every op enters the queue at
most once before being closed (duplicate and closed checks), so
`initial queue length + number of graph ops + 1` suffices. -/
def doActionLoop : Nat → LMSState → List Nat → List Nat → LMSState
  | 0, st, _, _ => st
  | _ + 1, st, [], _ => st
  | fuel + 1, st, src :: rest, closed =>
    let nextOps := (allConsumingOps st.graph src).filter
      (fun op => op ∉ st.gradOps)
    let st1 := insertSwnodes st src
    let queue1 := nextOps.foldl (fun acc op =>
      if op ∈ closed then acc
      else if op ∈ acc then acc else acc ++ [op]) rest
    doActionLoop fuel st1 queue1 (closed ++ [src])

/-- Configuration of a pass (`LMS.__init__` arguments). -/
structure LMSConfig where
  optimizerScopes : List (List String)
  startingScope : Option (List String)
  exclScopes : List (List String)
  inclScopes : List (List String)
  exclTypes : List String
  inclTypes : List String
  lb : Int
  ub : Int
  nTensors : Int
  fuse : Bool
  strategy : CTRLDStrategy
  swapBranches : Bool
  branchThreshold : Int
deriving DecidableEq, Repr

/-- The gradient (backward) operations: every op under one of the
optimizer scopes (`ge.filter_ops_from_regex(..., "^scope")`). -/
def gradOpsOf (g : Graph) (cfg : LMSConfig) : List Nat :=
  (g.ops.filter (fun o =>
    cfg.optimizerScopes.any (fun s => s.isPrefixOf o.name))).map Oper.id

/-- Stable insertion of a `(op, coverage)` pair into an
ascending-by-coverage list (mirrors Python's stable `sorted`). -/
def insertPair (p : Nat × Nat) : List (Nat × Nat) → List (Nat × Nat)
  | [] => [p]
  | q :: rest => if p.2 ≤ q.2 then p :: q :: rest else q :: insertPair p rest

def insertionSortPairs : List (Nat × Nat) → List (Nat × Nat)
  | [] => []
  | p :: rest => insertPair p (insertionSortPairs rest)

/-- The seed operations: ops under `starting_scope` when given,
otherwise the coverage heuristic (forward ops feeding a backward op,
ordered by how many other candidates they reach; the last of the stable
ascending sort — maximum coverage — is the single seed). `none` models
the `sorted_list[-1]` index error when no candidate has positive
coverage. -/
def seedOps (g : Graph) (cfg : LMSConfig) (gradOps : List Nat) :
    Option (List Nat) :=
  match cfg.startingScope with
  | some scope => some (scopeOps g scope)
  | none =>
    let candidates := (g.ops.filter (fun o => o.id ∉ gradOps ∧
      (outputsOf o).any (fun tr =>
        (consumingOps g tr).any (fun c => c ∈ gradOps)))).map Oper.id
    let pairs := candidates.filterMap (fun op =>
      let n := ((forwardWalkEx g op).filter (fun x => x ∈ candidates)).length
      if 0 < n then some (op, n) else none)
    match (insertionSortPairs pairs).getLast? with
    | some p => some [p.1]
    | none => none

/-- The type tag of an operation. -/
def opTy (g : Graph) (opId : Nat) : String :=
  match opById g opId with
  | some o => o.ty
  | none => ""

/-- `reachable_ops`: forward walks from the seeds, minus the backward
ops. -/
def reachableOpsOf (g : Graph) (seeds gradOps : List Nat) : List Nat :=
  ((seeds.flatMap (fun s => forwardWalk g s)).dedup).filter
    (fun op => op ∉ gradOps)

/-- The exclusion set built by `run`: reachable ops under an excluded
scope, united with reachable ops whose type is excluded — the
`atomicTypes` are always in the excluded types (`__init__`). -/
def exclOpsOf (g : Graph) (cfg : LMSConfig) (reachable : List Nat) :
    List Nat :=
  ((reachable.filter (fun op =>
      cfg.exclScopes.any (fun s => s.isPrefixOf (scopeOf g op))))
   ++ (reachable.filter (fun op =>
      opTy g op ∈ cfg.exclTypes ++ atomicTypes))).dedup

/-- The inclusion set built by `run`. -/
def inclOpsOf (g : Graph) (cfg : LMSConfig) (reachable : List Nat) :
    List Nat :=
  ((reachable.filter (fun op =>
      cfg.inclScopes.any (fun s => s.isPrefixOf (scopeOf g op))))
   ++ (reachable.filter (fun op => opTy g op ∈ cfg.inclTypes))).dedup

/-- The observable outcome of `LMS.run`. -/
structure RunResult where
  graph : Graph
  swapCount : Nat
  valid : Bool
  aborted : Bool
  addedOps : List Nat
deriving DecidableEq, Repr

/-- The state at the start of `do_action`. -/
def initialState (cfg : LMSConfig) (g : Graph) (excl incl grads : List Nat)
    (n : Nat) : LMSState :=
  ⟨g, excl, incl, grads, TOPOS.empty.build g, cfg.strategy, cfg.lb, cfg.ub,
   n, cfg.fuse, cfg.swapBranches, cfg.branchThreshold, 0⟩

/-- The body of `LMS.run` once the seed ops are known and the cap is
normalized: build the filter sets and the leveled order, traverse,
validate — the validation only computes the report; nothing is rolled
back. -/
def runBody (cfg : LMSConfig) (g : Graph) (n : Nat) (seeds : List Nat) :
    RunResult :=
  let grads := gradOpsOf g cfg
  let reachable := reachableOpsOf g seeds grads
  let excl := exclOpsOf g cfg reachable
  let incl := inclOpsOf g cfg reachable
  let stF := doActionLoop (g.ops.length + seeds.length + 1)
    (initialState cfg g excl incl grads n) seeds []
  let newReachable := (seeds.flatMap (fun s => forwardWalk stF.graph s)).dedup
  ⟨stF.graph, stF.incpuCount,
   reachable.all (fun op => op ∈ newReachable), false,
   newReachable.filter (fun op => op ∉ reachable)⟩

/-- `LMS.run`: `n_tensors == 0` is an explicit no-op request;
`n_tensors < 0` means "swap all" (cap 0 = unlimited). `aborted` models
the uncaught index error of the seed heuristic when no candidate
exists; nothing is applied in that case. -/
def runLMS (cfg : LMSConfig) (g : Graph) : RunResult :=
  if cfg.nTensors = 0 then ⟨g, 0, true, false, []⟩
  else
    match seedOps g cfg (gradOpsOf g cfg) with
    | none => ⟨g, 0, true, true, []⟩
    | some seeds =>
      runBody cfg g (if cfg.nTensors < 0 then 0 else cfg.nTensors.toNat) seeds

/-! ### Theorems for C5 and C10 -/

/-- C5: with `n_tensors = 0`, `run()` performs no graph mutation and
creates zero relocate-out operations: the result is the unchanged graph
with swap count 0, reported as a valid non-aborted (no-op) outcome. -/
theorem c5_zero_cap_is_noop (cfg : LMSConfig) (g : Graph)
    (h : cfg.nTensors = 0) :
    runLMS cfg g = ⟨g, 0, true, false, []⟩ := by
  unfold runLMS
  rw [if_pos h]

/-- Witness for C5 on a concrete configuration and graph. -/
theorem c5_zero_cap_is_noop_witness :
    (LMSConfig.nTensors ⟨[["grad"]], none, [], [], [], [], 1, 10000, 0,
        false, CTRLDStrategy.chainRule, false, 0⟩ = 0)
    ∧ runLMS ⟨[["grad"]], none, [], [], [], [], 1, 10000, 0,
        false, CTRLDStrategy.chainRule, false, 0⟩ exPair
      = ⟨exPair, 0, true, false, []⟩ :=
  ⟨rfl,
   c5_zero_cap_is_noop ⟨[["grad"]], none, [], [], [], [], 1, 10000, 0,
     false, CTRLDStrategy.chainRule, false, 0⟩ exPair rfl⟩

/-- C10: operations whose type tag is one of the atomic types are in the
exclusion set whenever they are reachable, for every configuration
(inclusion and exclusion settings included), and `insert_swnodes`
leaves the state untouched for any excluded op — so such operations are
never chosen as relocation producers. -/
theorem c10_atomic_types_always_excluded :
    (∀ (g : Graph) (cfg : LMSConfig) (reachable : List Nat) (op : Nat),
      op ∈ reachable → opTy g op ∈ atomicTypes →
      op ∈ exclOpsOf g cfg reachable)
    ∧ (∀ (st : LMSState) (srcId : Nat), srcId ∈ st.exclOps →
      insertSwnodes st srcId = st) := by
  constructor
  · intro g cfg reachable op hreach hty
    unfold exclOpsOf
    rw [List.mem_dedup]
    refine List.mem_append.mpr (Or.inr ?_)
    refine List.mem_filter.mpr ⟨hreach, ?_⟩
    simp only [decide_eq_true_eq]
    exact List.mem_append.mpr (Or.inr hty)
  · intro st srcId h
    unfold insertSwnodes
    rw [if_pos h]

/-- A concrete graph with a `Const` op feeding a backward op. -/
def exConst : Graph :=
  ⟨[⟨0, ["c"], "Const", [], [], 1⟩, ⟨1, ["grad", "a"], "X", [(0, 0)], [], 1⟩]⟩

/-- Witness for C10: a reachable `Const` op on a configuration that even
lists `Const` among the inclusion types is still excluded, and
`insert_swnodes` on an excluded op is the identity. -/
theorem c10_atomic_types_always_excluded_witness :
    (0 ∈ [0, 1] ∧ opTy exConst 0 ∈ atomicTypes
      ∧ 0 ∈ exclOpsOf exConst ⟨[["grad"]], none, [], [], [], ["Const"],
          1, 10000, -1, false, CTRLDStrategy.chainRule, false, 0⟩ [0, 1])
    ∧ ((0 : Nat) ∈ [0]
      ∧ insertSwnodes (initialState ⟨[["grad"]], none, [], [], [], [],
          1, 10000, -1, false, CTRLDStrategy.chainRule, false, 0⟩ exConst
          [0] [] [1] 0) 0
        = initialState ⟨[["grad"]], none, [], [], [], [],
          1, 10000, -1, false, CTRLDStrategy.chainRule, false, 0⟩ exConst
          [0] [] [1] 0) := by
  constructor
  · refine ⟨by decide, by decide, ?_⟩
    exact c10_atomic_types_always_excluded.1 exConst
      ⟨[["grad"]], none, [], [], [], ["Const"], 1, 10000, -1, false,
        CTRLDStrategy.chainRule, false, 0⟩ [0, 1] 0 (by decide) (by decide)
  · exact ⟨by decide,
      c10_atomic_types_always_excluded.2 _ 0 (by decide)⟩

/-! ### Data-input preservation lemmas (for C8) -/

/-- The data inputs of an operation in a graph. -/
def opInputs (g : Graph) (opId : Nat) : Option (List TensorRef) :=
  (opById g opId).map Oper.inputs

theorem find?_inputs_map (f : Oper → Oper)
    (hid : ∀ o, (f o).id = o.id) (hin : ∀ o, (f o).inputs = o.inputs) :
    ∀ (l : List Oper) (d : Nat),
      ((l.map f).find? (fun o => o.id = d)).map Oper.inputs
        = (l.find? (fun o => o.id = d)).map Oper.inputs := by
  intro l
  induction l with
  | nil => intro d; rfl
  | cons o rest ih =>
    intro d
    rw [List.map_cons]
    by_cases hd : o.id = d
    · rw [List.find?_cons_of_pos _ (by simp [hid, hd]),
        List.find?_cons_of_pos _ (by simp [hd])]
      simp [hin]
    · rw [List.find?_cons_of_neg _ (by simp [hid, hd]),
        List.find?_cons_of_neg _ (by simp [hd])]
      exact ih d

theorem find?_map_of_ne (f : Oper → Oper) (hid : ∀ o, (f o).id = o.id)
    (x : Nat) (hfix : ∀ o, o.id ≠ x → f o = o) :
    ∀ (l : List Oper) (d : Nat), d ≠ x →
      (l.map f).find? (fun o => o.id = d) = l.find? (fun o => o.id = d) := by
  intro l
  induction l with
  | nil => intro d _; rfl
  | cons o rest ih =>
    intro d hdx
    rw [List.map_cons]
    by_cases hd : o.id = d
    · rw [List.find?_cons_of_pos _ (by simp [hid, hd]),
        List.find?_cons_of_pos _ (by simp [hd])]
      rw [hfix o (by rw [hd]; exact hdx)]
    · rw [List.find?_cons_of_neg _ (by simp [hid, hd]),
        List.find?_cons_of_neg _ (by simp [hd])]
      exact ih d hdx

theorem opInputs_addCtrlInput (g : Graph) (x c d : Nat) :
    opInputs (addCtrlInput g x c) d = opInputs g d := by
  unfold opInputs addCtrlInput opById
  exact find?_inputs_map _
    (fun o => by by_cases h : o.id = x <;> simp [h])
    (fun o => by by_cases h : o.id = x <;> simp [h]) g.ops d

theorem opById_setInputAt_ne (g : Graph) (x pos : Nat) (tr : TensorRef)
    (d : Nat) (hdx : d ≠ x) :
    opById (setInputAt g x pos tr) d = opById g d := by
  unfold opById setInputAt
  exact find?_map_of_ne _
    (fun o => by by_cases h : o.id = x <;> simp [h]) x
    (fun o h => by simp [h]) g.ops d hdx

theorem opInputs_attachCtrld (g : Graph) (t : TOPOS) (gradOps : List Nat)
    (strategy : CTRLDStrategy) (fwId bwId swapinId : Nat) (lb ub : Int)
    (d : Nat) :
    opInputs (attachCtrld g t gradOps strategy fwId bwId swapinId lb ub) d
      = opInputs g d := by
  unfold attachCtrld
  rcases (anchorResult g t gradOps strategy fwId bwId lb ub).1 with _ | c
  · rfl
  · exact opInputs_addCtrlInput g swapinId c d

theorem opInputs_addCtrld (g : Graph) (t : TOPOS) (gradOps : List Nat)
    (strategy : CTRLDStrategy) (fwId bwId swapinId : Nat) (lb ub : Int)
    (d : Nat) :
    opInputs (addCtrld g t gradOps strategy fwId bwId swapinId lb ub) d
      = opInputs g d := by
  unfold addCtrld
  by_cases h : t.getOrder bwId < 0
  · rw [if_pos h]
    rcases findNco g t gradOps fwId bwId with _ | n
    · rcases findInscope g t gradOps (scopeOf g bwId) with _ | s
      · rfl
      · exact opInputs_attachCtrld _ _ _ _ _ _ _ _ _ _
    · exact opInputs_attachCtrld _ _ _ _ _ _ _ _ _ _
  · rw [if_neg h]
    exact opInputs_attachCtrld _ _ _ _ _ _ _ _ _ _

theorem find?_append_of_some {p : Oper → Bool} {l₁ : List Oper} {o : Oper}
    (h : l₁.find? p = some o) (l₂ : List Oper) :
    (l₁ ++ l₂).find? p = some o := by
  induction l₁ with
  | nil => cases h
  | cons a rest ih =>
    by_cases ha : p a
    · rw [List.find?_cons_of_pos _ ha] at h
      rw [List.cons_append, List.find?_cons_of_pos _ ha]
      exact h
    · rw [List.find?_cons_of_neg _ ha] at h
      rw [List.cons_append, List.find?_cons_of_neg _ ha]
      exact ih h

theorem opInputs_append {g : Graph} {d : Nat} {ins : List TensorRef}
    (h : opInputs g d = some ins) (l : List Oper) :
    opInputs ⟨g.ops ++ l⟩ d = some ins := by
  unfold opInputs opById at h ⊢
  rcases hf : g.ops.find? (fun o => o.id = d) with _ | o
  · rw [hf] at h; cases h
  · rw [hf] at h
    rw [find?_append_of_some hf l]
    exact h

/-- After redirecting an op's input found by `tsFromSrc`, the op reads
the new tensor. -/
theorem redirectInput_reads {g : Graph} {srcId destId : Nat}
    {ins : List TensorRef} (siId : Nat)
    (h : opInputs g destId = some ins) (hsrc : ∃ tr ∈ ins, tr.1 = srcId) :
    ∃ ins', opInputs
      (match tsFromSrc g destId srcId, opById g destId with
        | some ts0, some destOp =>
            setInputAt g destId (inputIndex ts0 destOp.inputs) (siId, 0)
        | _, _ => g) destId = some ins'
      ∧ (siId, 0) ∈ ins' := by
  unfold opInputs at h
  rcases ho : opById g destId with _ | destOp
  · rw [ho] at h; cases h
  · rw [ho] at h
    have hins : destOp.inputs = ins := by injection h
    obtain ⟨tr, htr, htrs⟩ := hsrc
    have hfind : (tsFromSrc g destId srcId).isSome := by
      unfold tsFromSrc
      rw [ho]
      rcases hf : destOp.inputs.find? (fun tr => tr.1 = srcId) with _ | t0
      · exfalso
        have := List.find?_eq_none.mp hf tr (hins ▸ htr)
        simp [htrs] at this
      · simp [hf]
    rcases hf : tsFromSrc g destId srcId with _ | ts0
    · rw [hf] at hfind; cases hfind
    · have hts0 : ts0 ∈ destOp.inputs := by
        unfold tsFromSrc at hf
        rw [ho] at hf
        exact List.mem_of_find?_eq_some hf
      have hpos : inputIndex ts0 destOp.inputs < destOp.inputs.length :=
        inputIndex_lt_length hts0
      refine ⟨destOp.inputs.set (inputIndex ts0 destOp.inputs) (siId, 0), ?_, ?_⟩
      · unfold opInputs
        have hById : opById (setInputAt g destId
            (inputIndex ts0 destOp.inputs) (siId, 0)) destId
            = some { destOp with inputs :=
                destOp.inputs.set (inputIndex ts0 destOp.inputs) (siId, 0) } := by
          unfold opById at ho
          unfold opById setInputAt
          have hgen : ∀ (l : List Oper), l.find? (fun o => o.id = destId) = some destOp →
              (l.map (fun o => if o.id = destId then
                { o with inputs := o.inputs.set (inputIndex ts0 destOp.inputs) (siId, 0) }
                else o)).find? (fun o => o.id = destId)
              = some { destOp with inputs :=
                  destOp.inputs.set (inputIndex ts0 destOp.inputs) (siId, 0) } := by
            intro l
            induction l with
            | nil => intro hc; cases hc
            | cons a rest ih =>
              intro hc
              by_cases ha : a.id = destId
              · rw [List.find?_cons_of_pos _ (by simp [ha])] at hc
                have haa : a = destOp := by injection hc
                subst haa
                rw [List.map_cons, if_pos ha,
                  List.find?_cons_of_pos _ (by simp [ha])]
              · rw [List.find?_cons_of_neg _ (by simp [ha])] at hc
                rw [List.map_cons, if_neg ha,
                  List.find?_cons_of_neg _ (by simp [ha])]
                exact ih hc
          exact hgen g.ops ho
        rw [hById]
        rfl
      · have hlen : inputIndex ts0 destOp.inputs
            < (destOp.inputs.set (inputIndex ts0 destOp.inputs) (siId, 0)).length := by
          rw [List.length_set]
          exact hpos
        have hget : (destOp.inputs.set (inputIndex ts0 destOp.inputs)
            (siId, 0)).get ⟨inputIndex ts0 destOp.inputs, hlen⟩ = (siId, 0) := by
          simp
        have hmem := List.get_mem
          (destOp.inputs.set (inputIndex ts0 destOp.inputs) (siId, 0))
          (inputIndex ts0 destOp.inputs) hlen
        rw [hget] at hmem
        exact hmem

theorem opInputs_setInputAt_ne (g : Graph) (x pos : Nat) (tr : TensorRef)
    (d : Nat) (hdx : d ≠ x) :
    opInputs (setInputAt g x pos tr) d = opInputs g d := by
  unfold opInputs
  rw [opById_setInputAt_ne g x pos tr d hdx]

theorem redirectAll_cons (srcId siId : Nat) (g : Graph) (destId : Nat)
    (rest : List Nat) :
    redirectAll srcId siId g (destId :: rest)
      = redirectAll srcId siId
          (match tsFromSrc g destId srcId, opById g destId with
            | some ts0, some destOp =>
                setInputAt g destId (inputIndex ts0 destOp.inputs) (siId, 0)
            | _, _ => g) rest := rfl

theorem redirectAll_preserve_ne (srcId siId : Nat) :
    ∀ (list : List Nat) (g : Graph) (d : Nat), d ∉ list →
      opInputs (redirectAll srcId siId g list) d = opInputs g d := by
  intro list
  induction list with
  | nil => intro g d _; rfl
  | cons destId rest ih =>
    intro g d hd
    have hdne : d ≠ destId := fun he => hd (he ▸ List.mem_cons_self _ _)
    have hdr : d ∉ rest := fun he => hd (List.mem_cons_of_mem _ he)
    rw [redirectAll_cons]
    rw [ih _ d hdr]
    rcases tsFromSrc g destId srcId with _ | ts0
    · rfl
    · rcases opById g destId with _ | destOp
      · rfl
      · exact opInputs_setInputAt_ne g destId _ (siId, 0) d hdne

/-- After `redirectAll`, every member of the (duplicate-free) list of
consumers that had an input produced by `srcId` reads the shared
relocate-in tensor `(siId, 0)`. -/
theorem redirectAll_reads (srcId siId : Nat) :
    ∀ (list : List Nat) (g : Graph), list.Nodup →
      (∀ d ∈ list, ∃ ins, opInputs g d = some ins ∧ ∃ tr ∈ ins, tr.1 = srcId) →
      ∀ d ∈ list, ∃ ins',
        opInputs (redirectAll srcId siId g list) d = some ins'
        ∧ (siId, 0) ∈ ins' := by
  intro list
  induction list with
  | nil => intro g _ _ d hd; cases hd
  | cons destId rest ih =>
    intro g hnodup hsrc d hd
    have hnd : destId ∉ rest ∧ rest.Nodup := by
      simpa using hnodup
    rcases List.mem_cons.mp hd with hd1 | hd1
    · subst hd1
      obtain ⟨ins, hins, htr⟩ := hsrc d (List.mem_cons_self _ _)
      obtain ⟨ins', hins', hmem'⟩ := redirectInput_reads siId hins htr
      rw [redirectAll_cons]
      rw [redirectAll_preserve_ne srcId siId rest _ d hnd.1]
      exact ⟨ins', hins', hmem'⟩
    · rw [redirectAll_cons]
      refine ih _ hnd.2 ?_ d hd1
      intro d' hd'
      obtain ⟨ins, hins, htr⟩ := hsrc d' (List.mem_cons_of_mem _ hd')
      have hne : d' ≠ destId := fun he => hnd.1 (he ▸ hd')
      refine ⟨ins, ?_, htr⟩
      rcases htf : tsFromSrc g destId srcId with _ | ts0
      · simpa using hins
      · rcases hby : opById g destId with _ | destOp
        · simpa using hins
        · rw [show (match (some ts0 : Option TensorRef),
              (some destOp : Option Oper) with
              | some ts0, some destOp =>
                  setInputAt g destId (inputIndex ts0 destOp.inputs) (siId, 0)
              | _, _ => g)
              = setInputAt g destId (inputIndex ts0 destOp.inputs) (siId, 0)
              from rfl]
          rw [opInputs_setInputAt_ne g destId _ (siId, 0) d' hne]
          exact hins

/-- C8 (amended): with `fuse` enabled and at least one positive-order
backward consumer, the backward-consumer set is partitioned by POSITIVE
TOPOLOGICAL ORDER (not by "lowest level vs rest"): every consumer with
positive order shares the single newly created relocate-in, the anchor
is attached via the earliest (minimum-order) of the shared consumers,
and exactly the consumers without positive order go through the
individual relocate-in loop. -/
theorem c8_fusion_partition_by_positive_order (st : LMSState)
    (srcId soId sampleId : Nat) (bwF : List Nat)
    (hfuse : st.fuse = true) (hne : fuseBwFrontier st.topo bwF ≠ [])
    (hnodup : (fuseBwFrontier st.topo bwF).Nodup)
    (hcons : ∀ d ∈ fuseBwFrontier st.topo bwF,
      ∃ ins, opInputs st.graph d = some ins ∧ ∃ tr ∈ ins, tr.1 = srcId) :
    (∀ b, b ∈ fuseBwFrontier st.topo bwF ↔ b ∈ bwF ∧ 0 < st.topo.getOrder b)
    ∧ processSwapins srcId soId sampleId st bwF
        = individualSwapins srcId soId (fusedState st srcId soId bwF)
            (bwF.filter (fun op => op ∉ fuseBwFrontier st.topo bwF))
    ∧ (∀ b, b ∈ bwF.filter (fun op => op ∉ fuseBwFrontier st.topo bwF)
        ↔ b ∈ bwF ∧ ¬ 0 < st.topo.getOrder b)
    ∧ (∀ b ∈ fuseBwFrontier st.topo bwF,
        ∃ ins, opInputs (fusedState st srcId soId bwF).graph b = some ins
          ∧ ((mkIdentity st.graph (soId, 0)).id, 0) ∈ ins)
    ∧ (∀ e, (earliestOp st.topo (fuseBwFrontier st.topo bwF)
          (none, (st.topo.size : Int) + 1)).1 = some e →
        e ∈ fuseBwFrontier st.topo bwF
        ∧ ∀ x ∈ fuseBwFrontier st.topo bwF,
            st.topo.getOrder e ≤ st.topo.getOrder x) := by
  have hpart : ∀ b, b ∈ fuseBwFrontier st.topo bwF
      ↔ b ∈ bwF ∧ 0 < st.topo.getOrder b := by
    intro b
    unfold fuseBwFrontier
    rw [List.mem_filter]
    simp
  refine ⟨hpart, ?_, ?_, ?_, ?_⟩
  · unfold processSwapins
    rw [if_pos ⟨hfuse, hne⟩]
  · intro b
    rw [List.mem_filter]
    constructor
    · intro ⟨h1, h2⟩
      simp only [decide_eq_true_eq] at h2
      refine ⟨h1, fun hpos => h2 ((hpart b).mpr ⟨h1, hpos⟩)⟩
    · intro ⟨h1, h2⟩
      refine ⟨h1, ?_⟩
      simp only [decide_eq_true_eq]
      intro hmem
      exact h2 ((hpart b).mp hmem).2
  · intro b hb
    -- the graph of `fusedState` preserves the data inputs set by
    -- `redirectAll` (the anchor step only adds a control edge)
    have hg : opInputs (fusedState st srcId soId bwF).graph b
        = opInputs (redirectAll srcId (mkIdentity st.graph (soId, 0)).id
            ⟨st.graph.ops ++ [mkIdentity st.graph (soId, 0)]⟩
            (fuseBwFrontier st.topo bwF)) b := by
      show opInputs (match (earliestOp st.topo (fuseBwFrontier st.topo bwF)
          (none, (st.topo.size : Int) + 1)).1 with
        | some e => addCtrld (redirectAll srcId (mkIdentity st.graph (soId, 0)).id
            ⟨st.graph.ops ++ [mkIdentity st.graph (soId, 0)]⟩
            (fuseBwFrontier st.topo bwF)) st.topo st.gradOps st.strategy srcId e
            (mkIdentity st.graph (soId, 0)).id st.lb st.ub
        | none => redirectAll srcId (mkIdentity st.graph (soId, 0)).id
            ⟨st.graph.ops ++ [mkIdentity st.graph (soId, 0)]⟩
            (fuseBwFrontier st.topo bwF)) b = _
      rcases (earliestOp st.topo (fuseBwFrontier st.topo bwF)
          (none, (st.topo.size : Int) + 1)).1 with _ | e
      · rfl
      · exact opInputs_addCtrld _ _ _ _ _ _ _ _ _ _
    rw [hg]
    refine redirectAll_reads srcId (mkIdentity st.graph (soId, 0)).id
      (fuseBwFrontier st.topo bwF) _ hnodup ?_ b hb
    intro d hd
    obtain ⟨ins, hins, htr⟩ := hcons d hd
    exact ⟨ins, opInputs_append hins _, htr⟩
  · intro e he
    obtain ⟨h1, _, h3⟩ := earliestOp_spec st.topo (fuseBwFrontier st.topo bwF)
      none ((st.topo.size : Int) + 1) (by intro b hb; cases hb)
    obtain ⟨heq, hmem⟩ := h1 e he
    rcases hmem with hmem | hmem
    · exact ⟨hmem, fun x hx => heq ▸ h3 x hx⟩
    · cases hmem

/-- A concrete fusion scenario: producer 0 feeds two backward consumers
1 (level 1) and 2 (level 2); 3 keeps 2 alive (not a dead end). -/
def exFuse : Graph :=
  ⟨[⟨0, ["p"], "X", [], [], 1⟩,
    ⟨1, ["grad", "a"], "X", [(0, 0)], [], 1⟩,
    ⟨2, ["grad", "b"], "X", [(0, 0), (1, 0)], [], 1⟩,
    ⟨3, ["grad", "c"], "X", [(2, 0)], [], 1⟩]⟩

/-- A pass state over `exFuse` with `fuse` enabled. -/
def exFuseState : LMSState :=
  ⟨exFuse, [], [], [1, 2, 3], TOPOS.empty.build exFuse,
   CTRLDStrategy.chainRule, 1, 10000, 0, true, false, 0, 0⟩

/-- Witness for C8 (amended): on `exFuseState`, the fused state wires
consumer 1 to the single shared relocate-in. -/
theorem c8_fusion_partition_by_positive_order_witness :
    (exFuseState.fuse = true ∧ fuseBwFrontier exFuseState.topo [1, 2] ≠ [])
    ∧ ∃ ins, opInputs (fusedState exFuseState 0 9 [1, 2]).graph 1 = some ins
        ∧ ((mkIdentity exFuseState.graph (9, 0)).id, 0) ∈ ins := by
  have hcons : ∀ d ∈ fuseBwFrontier exFuseState.topo [1, 2],
      ∃ ins, opInputs exFuseState.graph d = some ins
        ∧ ∃ tr ∈ ins, tr.1 = 0 := by
    intro d hd
    rw [show fuseBwFrontier exFuseState.topo [1, 2] = [1, 2] from by decide] at hd
    have hd2 : d = 1 ∨ d = 2 := by simpa using hd
    rcases hd2 with h | h <;> subst h
    · exact ⟨[(0, 0)], by decide, (0, 0), by decide, rfl⟩
    · exact ⟨[(0, 0), (1, 0)], by decide, (0, 0), by decide, rfl⟩
  refine ⟨⟨rfl, by decide⟩, ?_⟩
  exact (c8_fusion_partition_by_positive_order exFuseState 0 9 1 [1, 2]
    rfl (by decide) (by decide) hcons).2.2.2.1 1 (by decide)

/-- C8 (counterexample): on `exFuse` with `fuse` enabled, the two
backward consumers sit at DIFFERENT positive levels 1 and 2, yet BOTH
are put into the shared partition (`fuse_bw_frontier_ops` keeps every
consumer with positive order), the individual relocate-in list is
empty, and in the resulting graph both consumers read the same shared
relocate-in tensor `(5, 0)` — refuting the claim that the consumers at
the lowest level still receive their own individual relocate-ins. -/
theorem c8_counterexample :
    bwFrontierOf exFuseState (0, 0) = [1, 2]
    ∧ exFuseState.topo.getOrder 1 = 1
    ∧ exFuseState.topo.getOrder 2 = 2
    ∧ fuseBwFrontier exFuseState.topo (bwFrontierOf exFuseState (0, 0)) = [1, 2]
    ∧ (bwFrontierOf exFuseState (0, 0)).filter
        (fun op => op ∉ fuseBwFrontier exFuseState.topo
          (bwFrontierOf exFuseState (0, 0))) = []
    ∧ opInputs (processTensor exFuseState 0 (0, 0)).graph 1 = some [(5, 0)]
    ∧ opInputs (processTensor exFuseState 0 (0, 0)).graph 2
        = some [(5, 0), (1, 0)] := by
  decide

/-! ### Count preservation and cap bisimulation (for C4) -/

theorem individualSwapins_cons (srcId soId : Nat) (st : LMSState)
    (destId : Nat) (rest : List Nat) :
    individualSwapins srcId soId st (destId :: rest)
      = match addSwapin st.graph soId srcId destId with
        | (g1, some siId) => individualSwapins srcId soId
            { st with
              graph := addCtrld g1 st.topo st.gradOps st.strategy srcId
                destId siId st.lb st.ub
              exclOps := st.exclOps ++ [siId] } rest
        | (g1, none) =>
            individualSwapins srcId soId { st with graph := g1 } rest := rfl

theorem insertSwnodesLoop_cons (srcId : Nat) (st : LMSState)
    (tr : TensorRef) (rest : List TensorRef) :
    insertSwnodesLoop srcId st (tr :: rest)
      = if 0 < st.nTensors ∧ st.nTensors ≤ st.incpuCount then st
        else insertSwnodesLoop srcId (processTensor st srcId tr) rest := rfl

theorem individualSwapins_count (srcId soId : Nat) :
    ∀ (l : List Nat) (st : LMSState),
      (individualSwapins srcId soId st l).incpuCount = st.incpuCount
      ∧ (individualSwapins srcId soId st l).nTensors = st.nTensors := by
  intro l
  induction l with
  | nil => intro st; exact ⟨rfl, rfl⟩
  | cons destId rest ih =>
    intro st
    rw [individualSwapins_cons]
    rcases addSwapin st.graph soId srcId destId with ⟨g1, _ | siId⟩
    · obtain ⟨ih1, ih2⟩ := ih { st with graph := g1 }
      exact ⟨ih1, ih2⟩
    · obtain ⟨ih1, ih2⟩ := ih { st with
        graph := addCtrld g1 st.topo st.gradOps st.strategy srcId destId
          siId st.lb st.ub
        exclOps := st.exclOps ++ [siId] }
      exact ⟨ih1, ih2⟩

theorem processSwapins_count (srcId soId sampleId : Nat) (st : LMSState)
    (bwF : List Nat) :
    (processSwapins srcId soId sampleId st bwF).incpuCount = st.incpuCount
    ∧ (processSwapins srcId soId sampleId st bwF).nTensors = st.nTensors := by
  unfold processSwapins
  by_cases h : st.fuse = true ∧ fuseBwFrontier st.topo bwF ≠ []
  · rw [if_pos h]
    exact individualSwapins_count srcId soId _ _
  · rw [if_neg h]
    exact individualSwapins_count srcId soId _ _

theorem processTensor_nil {st : LMSState} {srcId : Nat} {tr : TensorRef}
    (h : bwFrontierOf st tr = []) : processTensor st srcId tr = st := by
  unfold processTensor
  rw [h]

theorem processTensor_cons {st : LMSState} {srcId : Nat} {tr : TensorRef}
    {sample : Nat} {rest : List Nat}
    (h : bwFrontierOf st tr = sample :: rest) :
    processTensor st srcId tr
      = match addSwapout st.graph srcId sample with
        | (g1, some soId) => processSwapins srcId soId sample
            { st with
              graph := g1
              exclOps := st.exclOps ++ [soId]
              incpuCount := st.incpuCount + 1 } (sample :: rest)
        | (_, none) => st := by
  unfold processTensor
  rw [h]

theorem processTensor_count (st : LMSState) (srcId : Nat) (tr : TensorRef) :
    (st.incpuCount ≤ (processTensor st srcId tr).incpuCount
      ∧ (processTensor st srcId tr).incpuCount ≤ st.incpuCount + 1)
    ∧ (processTensor st srcId tr).nTensors = st.nTensors := by
  rcases hbw : bwFrontierOf st tr with _ | ⟨sample, rest⟩
  · rw [processTensor_nil hbw]
    exact ⟨⟨le_refl _, Nat.le_succ _⟩, rfl⟩
  · rw [processTensor_cons hbw]
    rcases addSwapout st.graph srcId sample with ⟨g1, _ | soId⟩
    · exact ⟨⟨le_refl _, Nat.le_succ _⟩, rfl⟩
    · obtain ⟨h1, h2⟩ := processSwapins_count srcId soId sample
        { st with
          graph := g1
          exclOps := st.exclOps ++ [soId]
          incpuCount := st.incpuCount + 1 } (sample :: rest)
      refine ⟨⟨?_, ?_⟩, ?_⟩
      · show st.incpuCount ≤ (processSwapins srcId soId sample
          { st with
            graph := g1
            exclOps := st.exclOps ++ [soId]
            incpuCount := st.incpuCount + 1 } (sample :: rest)).incpuCount
        rw [h1]
        exact Nat.le_succ _
      · show (processSwapins srcId soId sample
          { st with
            graph := g1
            exclOps := st.exclOps ++ [soId]
            incpuCount := st.incpuCount + 1 } (sample :: rest)).incpuCount
            ≤ st.incpuCount + 1
        rw [h1]
      · show (processSwapins srcId soId sample
          { st with
            graph := g1
            exclOps := st.exclOps ++ [soId]
            incpuCount := st.incpuCount + 1 } (sample :: rest)).nTensors
            = st.nTensors
        rw [h2]

theorem insertSwnodesLoop_mono (srcId : Nat) :
    ∀ (trs : List TensorRef) (st : LMSState),
      st.incpuCount ≤ (insertSwnodesLoop srcId st trs).incpuCount
      ∧ (insertSwnodesLoop srcId st trs).nTensors = st.nTensors := by
  intro trs
  induction trs with
  | nil => intro st; exact ⟨le_refl _, rfl⟩
  | cons tr rest ih =>
    intro st
    rw [insertSwnodesLoop_cons]
    by_cases h : 0 < st.nTensors ∧ st.nTensors ≤ st.incpuCount
    · rw [if_pos h]; exact ⟨le_refl _, rfl⟩
    · rw [if_neg h]
      obtain ⟨⟨hm, _⟩, hn⟩ := processTensor_count st srcId tr
      obtain ⟨ihm, ihn⟩ := ih (processTensor st srcId tr)
      exact ⟨le_trans hm ihm, by rw [ihn, hn]⟩

theorem insertSwnodes_eq (st : LMSState) (srcId : Nat) :
    insertSwnodes st srcId
      = if srcId ∈ st.exclOps then st
        else if st.inclOps ≠ [] ∧ srcId ∉ st.inclOps then st
        else match opById st.graph srcId with
          | none => st
          | some o => insertSwnodesLoop srcId st (outputsOf o) := rfl

theorem doActionLoop_cons (fuel : Nat) (st : LMSState) (src : Nat)
    (rest closed : List Nat) :
    doActionLoop (fuel + 1) st (src :: rest) closed
      = doActionLoop fuel (insertSwnodes st src)
          (List.foldl (fun acc op =>
              if op ∈ closed then acc
              else if op ∈ acc then acc else acc ++ [op]) rest
            ((allConsumingOps st.graph src).filter
              (fun op => op ∉ st.gradOps)))
          (closed ++ [src]) := rfl

theorem insertSwnodes_mono (st : LMSState) (srcId : Nat) :
    st.incpuCount ≤ (insertSwnodes st srcId).incpuCount
    ∧ (insertSwnodes st srcId).nTensors = st.nTensors := by
  unfold insertSwnodes
  by_cases h1 : srcId ∈ st.exclOps
  · rw [if_pos h1]; exact ⟨le_refl _, rfl⟩
  · rw [if_neg h1]
    by_cases h2 : st.inclOps ≠ [] ∧ srcId ∉ st.inclOps
    · rw [if_pos h2]; exact ⟨le_refl _, rfl⟩
    · rw [if_neg h2]
      rcases opById st.graph srcId with _ | o
      · exact ⟨le_refl _, rfl⟩
      · exact insertSwnodesLoop_mono srcId (outputsOf o) st

theorem doActionLoop_mono :
    ∀ (fuel : Nat) (st : LMSState) (queue closed : List Nat),
      st.incpuCount ≤ (doActionLoop fuel st queue closed).incpuCount
      ∧ (doActionLoop fuel st queue closed).nTensors = st.nTensors := by
  intro fuel
  induction fuel with
  | zero => intro st queue closed; exact ⟨le_refl _, rfl⟩
  | succ fuel ih =>
    intro st queue closed
    rcases queue with _ | ⟨src, rest⟩
    · exact ⟨le_refl _, rfl⟩
    · rw [doActionLoop_cons]
      obtain ⟨h1, h2⟩ := insertSwnodes_mono st src
      obtain ⟨ih1, ih2⟩ := ih (insertSwnodes st src)
        (List.foldl (fun acc op =>
            if op ∈ closed then acc
            else if op ∈ acc then acc else acc ++ [op]) rest
          ((allConsumingOps st.graph src).filter
            (fun op => op ∉ st.gradOps))) (closed ++ [src])
      exact ⟨le_trans h1 ih1, by rw [ih2, h2]⟩

/-- Once the cap is reached, `insert_swnodes` leaves the whole state
untouched (later candidates are left alone). -/
theorem insertSwnodes_frozen (st : LMSState) (srcId : Nat)
    (h1 : 0 < st.nTensors) (h2 : st.nTensors ≤ st.incpuCount) :
    insertSwnodes st srcId = st := by
  rw [insertSwnodes_eq]
  by_cases he : srcId ∈ st.exclOps
  · rw [if_pos he]
  · rw [if_neg he]
    by_cases hi : st.inclOps ≠ [] ∧ srcId ∉ st.inclOps
    · rw [if_pos hi]
    · rw [if_neg hi]
      rcases hop : opById st.graph srcId with _ | o
      · rfl
      · show insertSwnodesLoop srcId st (outputsOf o) = st
        rcases houts : outputsOf o with _ | ⟨tr, rest⟩
        · rfl
        · rw [insertSwnodesLoop_cons, if_pos ⟨h1, h2⟩]

theorem doActionLoop_frozen :
    ∀ (fuel : Nat) (st : LMSState) (queue closed : List Nat),
      0 < st.nTensors → st.nTensors ≤ st.incpuCount →
      doActionLoop fuel st queue closed = st := by
  intro fuel
  induction fuel with
  | zero => intro st queue closed _ _; rfl
  | succ fuel ih =>
    intro st queue closed h1 h2
    rcases queue with _ | ⟨src, rest⟩
    · rfl
    · show doActionLoop fuel (insertSwnodes st src) _ (closed ++ [src]) = st
      rw [insertSwnodes_frozen st src h1 h2]
      exact ih st _ _ h1 h2

/-- None of the relocate-in machinery reads the cap: setting `nTensors`
commutes with `individualSwapins`. -/
theorem individualSwapins_cap_comm (srcId soId : Nat) :
    ∀ (l : List Nat) (st : LMSState) (n : Nat),
      individualSwapins srcId soId { st with nTensors := n } l
        = { individualSwapins srcId soId st l with nTensors := n } := by
  intro l
  induction l with
  | nil => intro st n; rfl
  | cons destId rest ih =>
    intro st n
    have e1 : individualSwapins srcId soId { st with nTensors := n }
        (destId :: rest)
      = match addSwapin st.graph soId srcId destId with
        | (g1, some siId) => individualSwapins srcId soId
            { st with
              nTensors := n
              graph := addCtrld g1 st.topo st.gradOps st.strategy srcId
                destId siId st.lb st.ub
              exclOps := st.exclOps ++ [siId] } rest
        | (g1, none) => individualSwapins srcId soId
            { st with nTensors := n, graph := g1 } rest := rfl
    rw [e1, individualSwapins_cons]
    rcases addSwapin st.graph soId srcId destId with ⟨g1, _ | siId⟩
    · exact ih { st with graph := g1 } n
    · exact ih { st with
        graph := addCtrld g1 st.topo st.gradOps st.strategy srcId destId
          siId st.lb st.ub
        exclOps := st.exclOps ++ [siId] } n

theorem processSwapins_cap_comm (srcId soId sampleId : Nat)
    (st : LMSState) (bwF : List Nat) (n : Nat) :
    processSwapins srcId soId sampleId { st with nTensors := n } bwF
      = { processSwapins srcId soId sampleId st bwF with nTensors := n } := by
  have e1 : processSwapins srcId soId sampleId { st with nTensors := n } bwF
      = if st.fuse ∧ fuseBwFrontier st.topo bwF ≠ []
        then individualSwapins srcId soId
          (fusedState { st with nTensors := n } srcId soId bwF)
          (bwF.filter (fun op => op ∉ fuseBwFrontier st.topo bwF))
        else individualSwapins srcId soId { st with nTensors := n } bwF := rfl
  rw [e1]
  unfold processSwapins
  by_cases h : st.fuse = true ∧ fuseBwFrontier st.topo bwF ≠ []
  · rw [if_pos h, if_pos h]
    have e2 : fusedState { st with nTensors := n } srcId soId bwF
        = { fusedState st srcId soId bwF with nTensors := n } := rfl
    rw [e2]
    exact individualSwapins_cap_comm srcId soId
      (bwF.filter (fun op => op ∉ fuseBwFrontier st.topo bwF))
      (fusedState st srcId soId bwF) n
  · rw [if_neg h, if_neg h]
    exact individualSwapins_cap_comm srcId soId bwF st n

theorem processTensor_cap_comm (st : LMSState) (srcId : Nat)
    (tr : TensorRef) (n : Nat) :
    processTensor { st with nTensors := n } srcId tr
      = { processTensor st srcId tr with nTensors := n } := by
  have e1 : bwFrontierOf { st with nTensors := n } tr = bwFrontierOf st tr := rfl
  rcases hbw : bwFrontierOf st tr with _ | ⟨sample, rest⟩
  · rw [processTensor_nil (e1.trans hbw), processTensor_nil hbw]
  · rw [@processTensor_cons { st with nTensors := n } srcId tr sample rest
        (e1.trans hbw),
      @processTensor_cons st srcId tr sample rest hbw]
    have e2 : addSwapout ({ st with nTensors := n } : LMSState).graph srcId sample
        = addSwapout st.graph srcId sample := rfl
    rw [e2]
    rcases addSwapout st.graph srcId sample with ⟨g1, _ | soId⟩
    · rfl
    · exact processSwapins_cap_comm srcId soId sample
        { st with
          graph := g1
          exclOps := st.exclOps ++ [soId]
          incpuCount := st.incpuCount + 1 } (sample :: rest) n

/-- Bisimulation of the tensor loop between a capped pass (`nTensors =
k`) and the unlimited pass (`nTensors = 0`): either the runs coincide
(modulo the cap field) with the count still at most `k`, or the capped
run has stopped exactly at `k` swap-outs while the unlimited one
created at least `k`. -/
theorem insertSwnodesLoop_bisim (srcId : Nat) (k : Nat) (hk : 0 < k) :
    ∀ (trs : List TensorRef) (st : LMSState),
      st.nTensors = 0 → st.incpuCount ≤ k →
      (insertSwnodesLoop srcId { st with nTensors := k } trs
          = { insertSwnodesLoop srcId st trs with nTensors := k }
        ∧ (insertSwnodesLoop srcId st trs).incpuCount ≤ k)
      ∨ ((insertSwnodesLoop srcId { st with nTensors := k } trs).nTensors = k
        ∧ (insertSwnodesLoop srcId { st with nTensors := k } trs).incpuCount = k
        ∧ k ≤ (insertSwnodesLoop srcId st trs).incpuCount) := by
  intro trs
  induction trs with
  | nil => intro st h0 hle; exact Or.inl ⟨rfl, hle⟩
  | cons tr rest ih =>
    intro st h0 hle
    rw [insertSwnodesLoop_cons, insertSwnodesLoop_cons]
    have hcu : ¬ (0 < st.nTensors ∧ st.nTensors ≤ st.incpuCount) := by
      rw [h0]; simp
    rw [if_neg hcu]
    by_cases hcap : st.incpuCount = k
    · rw [if_pos (show 0 < ({ st with nTensors := k } : LMSState).nTensors
          ∧ ({ st with nTensors := k } : LMSState).nTensors
            ≤ ({ st with nTensors := k } : LMSState).incpuCount
          from ⟨hk, le_of_eq hcap.symm⟩)]
      refine Or.inr ⟨rfl, hcap, ?_⟩
      obtain ⟨⟨hm, _⟩, _⟩ := processTensor_count st srcId tr
      obtain ⟨hm2, _⟩ := insertSwnodesLoop_mono srcId rest (processTensor st srcId tr)
      omega
    · rw [if_neg (show ¬ (0 < ({ st with nTensors := k } : LMSState).nTensors
          ∧ ({ st with nTensors := k } : LMSState).nTensors
            ≤ ({ st with nTensors := k } : LMSState).incpuCount)
          from fun hc => hcap (le_antisymm hle hc.2))]
      rw [processTensor_cap_comm st srcId tr k]
      obtain ⟨⟨_, hub⟩, hn⟩ := processTensor_count st srcId tr
      exact ih (processTensor st srcId tr) (hn.trans h0) (by omega)

theorem insertSwnodes_bisim (k : Nat) (hk : 0 < k) (st : LMSState)
    (srcId : Nat) (h0 : st.nTensors = 0) (hle : st.incpuCount ≤ k) :
    (insertSwnodes { st with nTensors := k } srcId
        = { insertSwnodes st srcId with nTensors := k }
      ∧ (insertSwnodes st srcId).incpuCount ≤ k)
    ∨ ((insertSwnodes { st with nTensors := k } srcId).nTensors = k
      ∧ (insertSwnodes { st with nTensors := k } srcId).incpuCount = k
      ∧ k ≤ (insertSwnodes st srcId).incpuCount) := by
  rw [insertSwnodes_eq, insertSwnodes_eq]
  by_cases he : srcId ∈ st.exclOps
  · rw [if_pos he,
      if_pos (show srcId ∈ ({ st with nTensors := k } : LMSState).exclOps from he)]
    exact Or.inl ⟨rfl, hle⟩
  · rw [if_neg he,
      if_neg (show ¬ srcId ∈ ({ st with nTensors := k } : LMSState).exclOps from he)]
    by_cases hi : st.inclOps ≠ [] ∧ srcId ∉ st.inclOps
    · rw [if_pos hi,
        if_pos (show ({ st with nTensors := k } : LMSState).inclOps ≠ []
          ∧ srcId ∉ ({ st with nTensors := k } : LMSState).inclOps from hi)]
      exact Or.inl ⟨rfl, hle⟩
    · rw [if_neg hi,
        if_neg (show ¬ (({ st with nTensors := k } : LMSState).inclOps ≠ []
          ∧ srcId ∉ ({ st with nTensors := k } : LMSState).inclOps) from hi)]
      have e1 : opById ({ st with nTensors := k } : LMSState).graph srcId
          = opById st.graph srcId := rfl
      rw [e1]
      rcases hop : opById st.graph srcId with _ | o
      · exact Or.inl ⟨rfl, hle⟩
      · exact insertSwnodesLoop_bisim srcId k hk (outputsOf o) st h0 hle

theorem doActionLoop_bisim (k : Nat) (hk : 0 < k) :
    ∀ (fuel : Nat) (st : LMSState) (queue closed : List Nat),
      st.nTensors = 0 → st.incpuCount ≤ k →
      ((doActionLoop fuel { st with nTensors := k } queue closed
          = { doActionLoop fuel st queue closed with nTensors := k })
        ∧ (doActionLoop fuel st queue closed).incpuCount ≤ k)
      ∨ ((doActionLoop fuel { st with nTensors := k } queue closed).incpuCount = k
        ∧ k ≤ (doActionLoop fuel st queue closed).incpuCount) := by
  intro fuel
  induction fuel with
  | zero => intro st queue closed h0 hle; exact Or.inl ⟨rfl, hle⟩
  | succ fuel ih =>
    intro st queue closed h0 hle
    rcases queue with _ | ⟨src, rest⟩
    · exact Or.inl ⟨rfl, hle⟩
    · rw [doActionLoop_cons, doActionLoop_cons]
      have e1 : ({ st with nTensors := k } : LMSState).graph = st.graph := rfl
      have e2 : ({ st with nTensors := k } : LMSState).gradOps = st.gradOps := rfl
      rw [e1, e2]
      rcases insertSwnodes_bisim k hk st src h0 hle with ⟨hA, hAle⟩ | ⟨hB1, hB2, hB3⟩
      · rw [hA]
        obtain ⟨_, hn⟩ := insertSwnodes_mono st src
        exact ih (insertSwnodes st src) _ (closed ++ [src]) (hn.trans h0) hAle
      · rw [doActionLoop_frozen fuel _ _ _ (by rw [hB1]; exact hk)
          (by rw [hB1, hB2])]
        obtain ⟨hm, _⟩ := doActionLoop_mono fuel (insertSwnodes st src)
          (List.foldl (fun acc op =>
              if op ∈ closed then acc
              else if op ∈ acc then acc else acc ++ [op]) rest
            ((allConsumingOps st.graph src).filter
              (fun op => op ∉ st.gradOps))) (closed ++ [src])
        exact Or.inr ⟨hB2, le_trans hB3 hm⟩

theorem runBody_swapCount (cfg : LMSConfig) (g : Graph) (n : Nat)
    (seeds : List Nat) :
    (runBody cfg g n seeds).swapCount
      = (doActionLoop (g.ops.length + seeds.length + 1)
          (initialState cfg g
            (exclOpsOf g cfg (reachableOpsOf g seeds (gradOpsOf g cfg)))
            (inclOpsOf g cfg (reachableOpsOf g seeds (gradOpsOf g cfg)))
            (gradOpsOf g cfg) n) seeds []).incpuCount := rfl

theorem initialState_cap (cfg : LMSConfig) (g : Graph)
    (e i gr : List Nat) (k : Nat) :
    initialState cfg g e i gr k
      = { initialState cfg g e i gr 0 with nTensors := k } := rfl

theorem runBody_cap (cfg : LMSConfig) (g : Graph) (seeds : List Nat)
    (k : Nat) (hk : 0 < k) :
    (runBody cfg g k seeds).swapCount
      = min k (runBody cfg g 0 seeds).swapCount := by
  rw [runBody_swapCount, runBody_swapCount, initialState_cap]
  rcases doActionLoop_bisim k hk (g.ops.length + seeds.length + 1)
      (initialState cfg g
        (exclOpsOf g cfg (reachableOpsOf g seeds (gradOpsOf g cfg)))
        (inclOpsOf g cfg (reachableOpsOf g seeds (gradOpsOf g cfg)))
        (gradOpsOf g cfg) 0) seeds [] rfl (Nat.zero_le k)
    with ⟨hA, hAle⟩ | ⟨hB1, hB2⟩
  · rw [hA, Nat.min_eq_right hAle]
  · rw [hB1, Nat.min_eq_left hB2]

/-- C4: with a positive cap `k`, a run creates exactly
`min(k, number of eligible tensors)` relocate-outs, where the number of
eligible tensors is what the identical run with an unlimited cap
(`n_tensors < 0`, normalized to 0) relocates; and the moment the count
reaches the cap, `insert_swnodes` leaves the state untouched, so later
candidates are unaffected. -/
theorem c4_cap_respected (cfg : LMSConfig) (g : Graph) (k : Nat)
    (hk : 0 < k) (hcfg : cfg.nTensors = (k : Int)) :
    (runLMS cfg g).swapCount
      = min k (runLMS { cfg with nTensors := -1 } g).swapCount
    ∧ (∀ (st : LMSState) (srcId : Nat), 0 < st.nTensors →
        st.nTensors ≤ st.incpuCount → insertSwnodes st srcId = st) := by
  refine ⟨?_, fun st srcId h1 h2 => insertSwnodes_frozen st srcId h1 h2⟩
  have h0 : ¬ cfg.nTensors = 0 := by rw [hcfg]; omega
  have hneg : ¬ cfg.nTensors < 0 := by rw [hcfg]; omega
  have h0' : ¬ ({ cfg with nTensors := -1 } : LMSConfig).nTensors = 0 := by
    show ¬ (-1 : Int) = 0
    omega
  unfold runLMS
  rw [if_neg h0, if_neg h0']
  have eseeds : seedOps g { cfg with nTensors := -1 }
      (gradOpsOf g { cfg with nTensors := -1 }) = seedOps g cfg (gradOpsOf g cfg) := rfl
  rw [eseeds]
  rcases hs : seedOps g cfg (gradOpsOf g cfg) with _ | seeds
  · show (0 : Nat) = min k 0
    rw [Nat.min_zero]
  · have ntk : (if cfg.nTensors < 0 then 0 else cfg.nTensors.toNat) = k := by
      rw [if_neg hneg, hcfg]
      simp
    have ntu : (if ({ cfg with nTensors := -1 } : LMSConfig).nTensors < 0 then 0
        else ({ cfg with nTensors := -1 } : LMSConfig).nTensors.toNat) = 0 := by
      rw [if_pos (show ({ cfg with nTensors := -1 } : LMSConfig).nTensors < 0
        from by show (-1 : Int) < 0; omega)]
    show (runBody cfg g (if cfg.nTensors < 0 then 0 else cfg.nTensors.toNat)
        seeds).swapCount
      = min k (runBody { cfg with nTensors := -1 } g
          (if ({ cfg with nTensors := -1 } : LMSConfig).nTensors < 0 then 0
           else ({ cfg with nTensors := -1 } : LMSConfig).nTensors.toNat)
          seeds).swapCount
    rw [ntk, ntu]
    have ebody : runBody { cfg with nTensors := -1 } g 0 seeds
        = runBody cfg g 0 seeds := rfl
    rw [ebody]
    exact runBody_cap cfg g seeds k hk

/-- A concrete cap-exhaustion scenario: two independently eligible
tensors (producers 0 and 1, each feeding a backward consumer). -/
def exCap : Graph :=
  ⟨[⟨0, ["fw", "a"], "X", [], [], 1⟩, ⟨1, ["fw", "b"], "X", [], [], 1⟩,
    ⟨2, ["grad", "a"], "X", [(0, 0)], [], 1⟩,
    ⟨3, ["grad", "b"], "X", [(1, 0)], [], 1⟩,
    ⟨4, ["grad", "c"], "X", [(2, 0), (3, 0)], [], 1⟩]⟩

/-- Witness for C4: `n_tensors = 1` with two eligible tensors creates
exactly `min 1 2 = 1` relocate-out. -/
theorem c4_cap_respected_witness :
    ((0 : Nat) < 1
      ∧ LMSConfig.nTensors ⟨[["grad"]], some ["fw"], [], [], [], [], 1,
          10000, 1, false, CTRLDStrategy.chainRule, false, 0⟩ = (1 : Int))
    ∧ (runLMS ⟨[["grad"]], some ["fw"], [], [], [], [], 1, 10000, 1, false,
        CTRLDStrategy.chainRule, false, 0⟩ exCap).swapCount
      = min 1 (runLMS ⟨[["grad"]], some ["fw"], [], [], [], [], 1, 10000, -1,
          false, CTRLDStrategy.chainRule, false, 0⟩ exCap).swapCount
    ∧ (runLMS ⟨[["grad"]], some ["fw"], [], [], [], [], 1, 10000, 1, false,
        CTRLDStrategy.chainRule, false, 0⟩ exCap).swapCount = 1
    ∧ (runLMS ⟨[["grad"]], some ["fw"], [], [], [], [], 1, 10000, -1, false,
        CTRLDStrategy.chainRule, false, 0⟩ exCap).swapCount = 2 :=
  ⟨⟨by decide, rfl⟩,
   (c4_cap_respected ⟨[["grad"]], some ["fw"], [], [], [], [], 1, 10000, 1,
      false, CTRLDStrategy.chainRule, false, 0⟩ exCap 1 (by decide) rfl).1,
   by decide, by decide⟩

/-! ### Reachability (for C3)

`Reaches` is the transitive closure of the data/control edge relation —
the propositional counterpart of `ge.get_forward_walk_ops` used to
state reachability monotonicity. -/

/-- One data or control edge: `v` consumes an output of `u` or has `u`
as a control input. -/
def edgeStep (g : Graph) (u v : Nat) : Prop :=
  ∃ o ∈ g.ops, o.id = v ∧ ((∃ tr ∈ o.inputs, tr.1 = u) ∨ u ∈ o.ctrlInputs)

/-- Forward reachability over data+control edges (inclusive). -/
def Reaches (g : Graph) (s x : Nat) : Prop :=
  Relation.ReflTransGen (edgeStep g) s x

/-- `g'` preserves every reachability fact of `g`. -/
def Preserves (g g' : Graph) : Prop :=
  ∀ s x, Reaches g s x → Reaches g' s x

theorem preserves_rfl (g : Graph) : Preserves g g := fun _ _ h => h

theorem preserves_trans {g₁ g₂ g₃ : Graph} (h1 : Preserves g₁ g₂)
    (h2 : Preserves g₂ g₃) : Preserves g₁ g₃ :=
  fun s x h => h2 s x (h1 s x h)

/-- If every edge of `g` is re-derivable as a path of `g'`, then `g'`
preserves reachability. -/
theorem preserves_of_edge {g g' : Graph}
    (h : ∀ u v, edgeStep g u v → Relation.ReflTransGen (edgeStep g') u v) :
    Preserves g g' := by
  intro s x hr
  induction hr with
  | refl => exact Relation.ReflTransGen.refl
  | tail hsteps hedge ih => exact ih.trans (h _ _ hedge)

theorem edge_append {g : Graph} {u v : Nat} (l : List Oper)
    (h : edgeStep g u v) : edgeStep ⟨g.ops ++ l⟩ u v := by
  obtain ⟨o, ho, hid, hrest⟩ := h
  exact ⟨o, List.mem_append.mpr (Or.inl ho), hid, hrest⟩

theorem preserves_append (g : Graph) (l : List Oper) :
    Preserves g ⟨g.ops ++ l⟩ :=
  preserves_of_edge (fun u v h =>
    Relation.ReflTransGen.single (edge_append l h))

theorem edge_addCtrlInput {g : Graph} {u v : Nat} (x c : Nat)
    (h : edgeStep g u v) : edgeStep (addCtrlInput g x c) u v := by
  obtain ⟨o, ho, hid, hrest⟩ := h
  refine ⟨if o.id = x then { o with ctrlInputs := o.ctrlInputs ++ [c] } else o,
    List.mem_map.mpr ⟨o, ho, rfl⟩, ?_, ?_⟩
  · by_cases hx : o.id = x
    · rw [if_pos hx]
      exact hid
    · rw [if_neg hx]
      exact hid
  · by_cases hx : o.id = x
    · rw [if_pos hx]
      rcases hrest with h1 | h1
      · exact Or.inl h1
      · exact Or.inr (List.mem_append.mpr (Or.inl h1))
    · rw [if_neg hx]
      exact hrest

theorem preserves_addCtrlInput (g : Graph) (x c : Nat) :
    Preserves g (addCtrlInput g x c) :=
  preserves_of_edge (fun u v h =>
    Relation.ReflTransGen.single (edge_addCtrlInput x c h))

theorem preserves_attachCtrld (g : Graph) (t : TOPOS) (gradOps : List Nat)
    (strategy : CTRLDStrategy) (fwId bwId swapinId : Nat) (lb ub : Int) :
    Preserves g (attachCtrld g t gradOps strategy fwId bwId swapinId lb ub) := by
  unfold attachCtrld
  rcases (anchorResult g t gradOps strategy fwId bwId lb ub).1 with _ | c
  · exact preserves_rfl g
  · exact preserves_addCtrlInput g swapinId c

theorem preserves_addCtrld (g : Graph) (t : TOPOS) (gradOps : List Nat)
    (strategy : CTRLDStrategy) (fwId bwId swapinId : Nat) (lb ub : Int) :
    Preserves g (addCtrld g t gradOps strategy fwId bwId swapinId lb ub) := by
  unfold addCtrld
  by_cases h : t.getOrder bwId < 0
  · rw [if_pos h]
    rcases findNco g t gradOps fwId bwId with _ | n
    · rcases findInscope g t gradOps (scopeOf g bwId) with _ | s
      · exact preserves_rfl g
      · exact preserves_attachCtrld _ _ _ _ _ _ _ _ _
    · exact preserves_attachCtrld _ _ _ _ _ _ _ _ _
  · rw [if_neg h]
    exact preserves_attachCtrld _ _ _ _ _ _ _ _ _

/-! ### Operation ids and duplicate-freeness -/

/-- The ids of a graph's operations. -/
def idsOf (g : Graph) : List Nat := g.ops.map Oper.id

/-- All operation ids are distinct (TensorFlow identifies ops by unique
name; ids play that role in the embedding). -/
def NodupIds (g : Graph) : Prop := (idsOf g).Nodup

theorem mem_le_foldr_max : ∀ (l : List Nat) (x : Nat), x ∈ l → x ≤ l.foldr max 0 := by
  intro l
  induction l with
  | nil => intro x h; cases h
  | cons a rest ih =>
    intro x h
    rcases List.mem_cons.mp h with h1 | h1
    · subst h1
      exact le_max_left _ _
    · exact le_trans (ih x h1) (le_max_right _ _)

theorem freshId_not_mem (g : Graph) : freshId g ∉ idsOf g := by
  intro h
  have := mem_le_foldr_max (idsOf g) (freshId g) h
  unfold freshId idsOf at *
  omega

theorem idsOf_setInputAt (g : Graph) (x p : Nat) (t : TensorRef) :
    idsOf (setInputAt g x p t) = idsOf g := by
  unfold idsOf setInputAt
  rw [List.map_map]
  apply List.map_congr_left
  intro o _
  by_cases h : o.id = x <;> simp [h]

theorem idsOf_addCtrlInput (g : Graph) (x c : Nat) :
    idsOf (addCtrlInput g x c) = idsOf g := by
  unfold idsOf addCtrlInput
  rw [List.map_map]
  apply List.map_congr_left
  intro o _
  by_cases h : o.id = x <;> simp [h]

theorem idsOf_attachCtrld (g : Graph) (t : TOPOS) (gradOps : List Nat)
    (strategy : CTRLDStrategy) (fwId bwId swapinId : Nat) (lb ub : Int) :
    idsOf (attachCtrld g t gradOps strategy fwId bwId swapinId lb ub)
      = idsOf g := by
  unfold attachCtrld
  rcases (anchorResult g t gradOps strategy fwId bwId lb ub).1 with _ | c
  · rfl
  · exact idsOf_addCtrlInput g swapinId c

theorem idsOf_addCtrld (g : Graph) (t : TOPOS) (gradOps : List Nat)
    (strategy : CTRLDStrategy) (fwId bwId swapinId : Nat) (lb ub : Int) :
    idsOf (addCtrld g t gradOps strategy fwId bwId swapinId lb ub)
      = idsOf g := by
  unfold addCtrld
  by_cases h : t.getOrder bwId < 0
  · rw [if_pos h]
    rcases findNco g t gradOps fwId bwId with _ | n
    · rcases findInscope g t gradOps (scopeOf g bwId) with _ | s
      · rfl
      · exact idsOf_attachCtrld _ _ _ _ _ _ _ _ _
    · exact idsOf_attachCtrld _ _ _ _ _ _ _ _ _
  · rw [if_neg h]
    exact idsOf_attachCtrld _ _ _ _ _ _ _ _ _

theorem idsOf_append (g : Graph) (l : List Oper) :
    idsOf ⟨g.ops ++ l⟩ = idsOf g ++ l.map Oper.id := by
  unfold idsOf
  exact List.map_append _ _ _

theorem nodupIds_append_fresh {g : Graph} {o : Oper} (h : NodupIds g)
    (hf : o.id ∉ idsOf g) : NodupIds ⟨g.ops ++ [o]⟩ := by
  unfold NodupIds
  rw [idsOf_append]
  simp only [List.map_cons, List.map_nil]
  rw [List.nodup_append]
  refine ⟨h, List.nodup_singleton _, ?_⟩
  intro a ha hb
  have : a = o.id := by simpa using hb
  exact hf (this ▸ ha)

theorem find?_id_of_nodup {d : Nat} :
    ∀ (l : List Oper), (l.map Oper.id).Nodup →
      ∀ o ∈ l, o.id = d → l.find? (fun o => o.id = d) = some o := by
  intro l
  induction l with
  | nil => intro _ o ho; cases ho
  | cons a rest ih =>
    intro hnd o ho hid
    have hnd' : (rest.map Oper.id).Nodup ∧ a.id ∉ rest.map Oper.id := by
      rw [List.map_cons] at hnd
      exact ⟨(List.nodup_cons.mp hnd).2, (List.nodup_cons.mp hnd).1⟩
    by_cases ha : a.id = d
    · rw [List.find?_cons_of_pos _ (by simp [ha])]
      rcases List.mem_cons.mp ho with h1 | h1
      · rw [h1]
      · exfalso
        have hm : o.id ∈ rest.map Oper.id := List.mem_map.mpr ⟨o, h1, rfl⟩
        rw [hid, ← ha] at hm
        exact hnd'.2 hm
    · rw [List.find?_cons_of_neg _ (by simp [ha])]
      rcases List.mem_cons.mp ho with h1 | h1
      · exfalso
        rw [h1] at hid
        exact ha hid
      · exact ih hnd'.1 o h1 hid

/-- With distinct ids, the op found by `opById` is the unique op with
that id. -/
theorem opById_of_nodup {d : Nat} {g : Graph} (hnd : NodupIds g) {o : Oper}
    (ho : o ∈ g.ops) (hid : o.id = d) : opById g d = some o :=
  find?_id_of_nodup g.ops hnd o ho hid

/-! ### Witness predicates surviving graph mutations -/

/-- Operation `opId` consumes some output of `srcId`. -/
def hasSrcInput (g : Graph) (opId srcId : Nat) : Prop :=
  ∃ o ∈ g.ops, o.id = opId ∧ ∃ tr ∈ o.inputs, tr.1 = srcId

/-- Operation `opId` has the exact tensor `tr` among its inputs. -/
def hasInputTensor (g : Graph) (opId : Nat) (tr : TensorRef) : Prop :=
  ∃ o ∈ g.ops, o.id = opId ∧ tr ∈ o.inputs

theorem edge_of_hasSrcInput {g : Graph} {a s : Nat}
    (h : hasSrcInput g a s) : edgeStep g s a := by
  obtain ⟨o, ho, hid, tr, htr, hts⟩ := h
  exact ⟨o, ho, hid, Or.inl ⟨tr, htr, hts⟩⟩

theorem edge_of_hasInputTensor {g : Graph} {a b j : Nat}
    (h : hasInputTensor g a (b, j)) : edgeStep g b a := by
  obtain ⟨o, ho, hid, htr⟩ := h
  exact ⟨o, ho, hid, Or.inl ⟨(b, j), htr, rfl⟩⟩

theorem hasSrcInput_append {g : Graph} {a s : Nat} (l : List Oper)
    (h : hasSrcInput g a s) : hasSrcInput ⟨g.ops ++ l⟩ a s := by
  obtain ⟨o, ho, hrest⟩ := h
  exact ⟨o, List.mem_append.mpr (Or.inl ho), hrest⟩

theorem hasSrcInput_setInputAt_ne {g : Graph} {a s : Nat} {x p : Nat}
    {t : TensorRef} (hne : a ≠ x) (h : hasSrcInput g a s) :
    hasSrcInput (setInputAt g x p t) a s := by
  obtain ⟨o, ho, hid, hrest⟩ := h
  refine ⟨o, ?_, hid, hrest⟩
  have : (if o.id = x then { o with inputs := o.inputs.set p t } else o) = o := by
    rw [if_neg (by rw [hid]; exact hne)]
  exact this ▸ List.mem_map.mpr ⟨o, ho, rfl⟩

theorem hasSrcInput_addCtrlInput {g : Graph} {a s : Nat} (x c : Nat)
    (h : hasSrcInput g a s) : hasSrcInput (addCtrlInput g x c) a s := by
  obtain ⟨o, ho, hid, hrest⟩ := h
  refine ⟨if o.id = x then { o with ctrlInputs := o.ctrlInputs ++ [c] } else o,
    List.mem_map.mpr ⟨o, ho, rfl⟩, ?_, ?_⟩
  · by_cases hx : o.id = x
    · rw [if_pos hx]; exact hid
    · rw [if_neg hx]; exact hid
  · by_cases hx : o.id = x
    · rw [if_pos hx]; exact hrest
    · rw [if_neg hx]; exact hrest

theorem hasSrcInput_attachCtrld {g : Graph} {a s : Nat} (t : TOPOS)
    (gradOps : List Nat) (strategy : CTRLDStrategy)
    (fwId bwId swapinId : Nat) (lb ub : Int) (h : hasSrcInput g a s) :
    hasSrcInput (attachCtrld g t gradOps strategy fwId bwId swapinId lb ub) a s := by
  unfold attachCtrld
  rcases (anchorResult g t gradOps strategy fwId bwId lb ub).1 with _ | c
  · exact h
  · exact hasSrcInput_addCtrlInput swapinId c h

theorem hasSrcInput_addCtrld {g : Graph} {a s : Nat} (t : TOPOS)
    (gradOps : List Nat) (strategy : CTRLDStrategy)
    (fwId bwId swapinId : Nat) (lb ub : Int) (h : hasSrcInput g a s) :
    hasSrcInput (addCtrld g t gradOps strategy fwId bwId swapinId lb ub) a s := by
  unfold addCtrld
  by_cases hc : t.getOrder bwId < 0
  · rw [if_pos hc]
    rcases findNco g t gradOps fwId bwId with _ | n
    · rcases findInscope g t gradOps (scopeOf g bwId) with _ | sc
      · exact h
      · exact hasSrcInput_attachCtrld _ _ _ _ _ _ _ _ h
    · exact hasSrcInput_attachCtrld _ _ _ _ _ _ _ _ h
  · rw [if_neg hc]
    exact hasSrcInput_attachCtrld _ _ _ _ _ _ _ _ h

theorem hasInputTensor_append {g : Graph} {a : Nat} {t0 : TensorRef}
    (l : List Oper) (h : hasInputTensor g a t0) :
    hasInputTensor ⟨g.ops ++ l⟩ a t0 := by
  obtain ⟨o, ho, hrest⟩ := h
  exact ⟨o, List.mem_append.mpr (Or.inl ho), hrest⟩

theorem hasInputTensor_setInputAt_ne {g : Graph} {a : Nat} {t0 : TensorRef}
    {x p : Nat} {t : TensorRef} (hne : a ≠ x) (h : hasInputTensor g a t0) :
    hasInputTensor (setInputAt g x p t) a t0 := by
  obtain ⟨o, ho, hid, hrest⟩ := h
  refine ⟨o, ?_, hid, hrest⟩
  have : (if o.id = x then { o with inputs := o.inputs.set p t } else o) = o := by
    rw [if_neg (by rw [hid]; exact hne)]
  exact this ▸ List.mem_map.mpr ⟨o, ho, rfl⟩

/-! ### Positional lemmas about `inputIndex` and `List.set` -/

theorem get?_inputIndex {tr : TensorRef} :
    ∀ (l : List TensorRef), tr ∈ l → l.get? (inputIndex tr l) = some tr := by
  intro l
  induction l with
  | nil => intro h; cases h
  | cons x rest ih =>
    intro h
    have he : inputIndex tr (x :: rest)
        = if x = tr then 0 else inputIndex tr rest + 1 := rfl
    by_cases hx : x = tr
    · rw [he, if_pos hx, List.get?_cons_zero, hx]
    · have hm : tr ∈ rest := by
        rcases List.mem_cons.mp h with h1 | h1
        · exact absurd h1.symm hx
        · exact h1
      rw [he, if_neg hx, List.get?_cons_succ]
      exact ih hm

theorem mem_set_or {α : Type} {l : List α} {tr : α} (h : tr ∈ l)
    (p : Nat) (t : α) : tr ∈ l.set p t ∨ l.get? p = some tr := by
  induction l generalizing p with
  | nil => cases h
  | cons x rest ih =>
    rcases p with _ | n
    · rcases List.mem_cons.mp h with h1 | h1
      · exact Or.inr (by rw [List.get?_cons_zero, h1])
      · exact Or.inl (List.mem_cons_of_mem _ h1)
    · rcases List.mem_cons.mp h with h1 | h1
      · exact Or.inl (h1 ▸ List.mem_cons_self _ _)
      · rcases ih h1 n with h2 | h2
        · exact Or.inl (List.mem_cons_of_mem _ h2)
        · exact Or.inr (by rw [List.get?_cons_succ]; exact h2)

theorem mem_set_of_lt {α : Type} (l : List α) (p : Nat) (t : α)
    (hp : p < l.length) : t ∈ l.set p t := by
  have hlen : p < (l.set p t).length := by
    rw [List.length_set]
    exact hp
  have hget : (l.set p t).get ⟨p, hlen⟩ = t := by simp
  have hmem := List.get_mem (l.set p t) p hlen
  rw [hget] at hmem
  exact hmem

/-! ### Structural lemmas for the relocation rewrite (C3) -/

theorem opById_mem {g : Graph} {d : Nat} {o : Oper}
    (h : opById g d = some o) : o ∈ g.ops ∧ o.id = d := by
  unfold opById at h
  refine ⟨List.mem_of_find?_eq_some h, ?_⟩
  have := List.find?_some h
  simpa using this

theorem oper_unique {g : Graph} (hnd : NodupIds g) {o o' : Oper}
    (ho : o ∈ g.ops) (ho' : o' ∈ g.ops) (hid : o.id = o'.id) : o = o' := by
  have h1 := find?_id_of_nodup g.ops hnd o ho rfl
  have h2 := find?_id_of_nodup g.ops hnd o' ho' hid.symm
  rw [h1] at h2
  injection h2

theorem mem_setInputAt_of_ne {g : Graph} {o : Oper} {x : Nat}
    (ho : o ∈ g.ops) (hne : o.id ≠ x) (p : Nat) (t : TensorRef) :
    o ∈ (setInputAt g x p t).ops :=
  List.mem_map.mpr ⟨o, ho, by rw [if_neg hne]⟩

theorem mem_setInputAt_self {g : Graph} {o : Oper} {x : Nat}
    (ho : o ∈ g.ops) (hid : o.id = x) (p : Nat) (t : TensorRef) :
    { o with inputs := o.inputs.set p t } ∈ (setInputAt g x p t).ops :=
  List.mem_map.mpr ⟨o, ho, by rw [if_pos hid]⟩

/-- One step of the shared-relocate-in redirection: if `dest` still reads
a tensor produced by `src`, redirect that input (found by positional
index) to output 0 of the relocate-in `siId`; otherwise leave the graph
unchanged (the loop body of `redirectAll`, and the mutation performed by
`add_swapin` after the relocate-in node is created). -/
def redirectStep (g : Graph) (srcId siId destId : Nat) : Graph :=
  match tsFromSrc g destId srcId, opById g destId with
  | some ts0, some destOp =>
      setInputAt g destId (inputIndex ts0 destOp.inputs) (siId, 0)
  | _, _ => g

theorem redirectAll_cons_step (srcId siId : Nat) (g : Graph) (destId : Nat)
    (rest : List Nat) :
    redirectAll srcId siId g (destId :: rest)
      = redirectAll srcId siId (redirectStep g srcId siId destId) rest := rfl

theorem hasInputTensor_mkIdentity_append (g : Graph) (tr : TensorRef) :
    hasInputTensor ⟨g.ops ++ [mkIdentity g tr]⟩ (mkIdentity g tr).id tr :=
  ⟨mkIdentity g tr, List.mem_append.mpr (Or.inr (List.mem_singleton.mpr rfl)),
   rfl, List.mem_singleton.mpr rfl⟩

/-- The removal analysis for one input redirection: with distinct ids,
the only graph edge that `redirectStep` can remove is the data edge from
the producer into `dest` through the redirected input slot, and that
edge is bypassed by the surviving path
producer → relocate-out → relocate-in → dest; every other edge, and the
relocate chain itself, survives untouched. -/
theorem redirectStep_preserves {g : Graph} {srcId soId siId destId : Nat}
    (hnd : NodupIds g) (hso : hasSrcInput g soId srcId)
    (hsi : hasInputTensor g siId (soId, 0))
    (h1 : destId ≠ soId) (h2 : destId ≠ siId) :
    Preserves g (redirectStep g srcId siId destId)
    ∧ NodupIds (redirectStep g srcId siId destId)
    ∧ hasSrcInput (redirectStep g srcId siId destId) soId srcId
    ∧ hasInputTensor (redirectStep g srcId siId destId) siId (soId, 0) := by
  unfold redirectStep
  rcases hts : tsFromSrc g destId srcId with _ | ts0
  · exact ⟨preserves_rfl g, hnd, hso, hsi⟩
  · rcases hop : opById g destId with _ | destOp
    · exact ⟨preserves_rfl g, hnd, hso, hsi⟩
    · obtain ⟨hmemD, hidD⟩ := opById_mem hop
      have hts' : destOp.inputs.find? (fun tr => tr.1 = srcId) = some ts0 := by
        unfold tsFromSrc at hts
        rw [hop] at hts
        exact hts
      have hts0mem : ts0 ∈ destOp.inputs := List.mem_of_find?_eq_some hts'
      have hts0src : ts0.1 = srcId := by
        have := List.find?_some hts'
        simpa using this
      have hso' : hasSrcInput
          (setInputAt g destId (inputIndex ts0 destOp.inputs) (siId, 0))
          soId srcId := hasSrcInput_setInputAt_ne (Ne.symm h1) hso
      have hsi' : hasInputTensor
          (setInputAt g destId (inputIndex ts0 destOp.inputs) (siId, 0))
          siId (soId, 0) := hasInputTensor_setInputAt_ne (Ne.symm h2) hsi
      refine ⟨?_, ?_, hso', hsi'⟩
      · apply preserves_of_edge
        intro u v hedge
        obtain ⟨o, ho, hidv, hrest⟩ := hedge
        by_cases hvo : o.id = destId
        · have hoeq : o = destOp := oper_unique hnd ho hmemD (by rw [hvo, hidD])
          subst hoeq
          have hv : v = destId := by rw [← hidv]; exact hvo
          rcases hrest with ⟨tr, htr, htru⟩ | hctl
          · rcases mem_set_or htr (inputIndex ts0 o.inputs) (siId, 0) with
              hsurv | hat
            · exact Relation.ReflTransGen.single
                ⟨{ o with inputs := o.inputs.set (inputIndex ts0 o.inputs) (siId, 0) },
                 mem_setInputAt_self hmemD hvo _ _, hidv,
                 Or.inl ⟨tr, hsurv, htru⟩⟩
            · have hget := get?_inputIndex o.inputs hts0mem
              rw [hat] at hget
              have htr0 : tr = ts0 := by injection hget
              have hu : u = srcId := by
                rw [← htru, htr0]
                exact hts0src
              rw [hu, hv]
              have e1 : edgeStep
                  (setInputAt g destId (inputIndex ts0 o.inputs) (siId, 0))
                  srcId soId := edge_of_hasSrcInput hso'
              have e2 : edgeStep
                  (setInputAt g destId (inputIndex ts0 o.inputs) (siId, 0))
                  soId siId := edge_of_hasInputTensor hsi'
              have e3 : edgeStep
                  (setInputAt g destId (inputIndex ts0 o.inputs) (siId, 0))
                  siId destId :=
                ⟨{ o with inputs := o.inputs.set (inputIndex ts0 o.inputs) (siId, 0) },
                 mem_setInputAt_self hmemD hvo _ _, hvo,
                 Or.inl ⟨(siId, 0),
                   mem_set_of_lt o.inputs _ (siId, 0) (inputIndex_lt_length hts0mem),
                   rfl⟩⟩
              exact ((Relation.ReflTransGen.single e1).tail e2).tail e3
          · exact Relation.ReflTransGen.single
              ⟨{ o with inputs := o.inputs.set (inputIndex ts0 o.inputs) (siId, 0) },
               mem_setInputAt_self hmemD hvo _ _, hidv, Or.inr hctl⟩
        · exact Relation.ReflTransGen.single
            ⟨o, mem_setInputAt_of_ne ho hvo _ _, hidv, hrest⟩
      · unfold NodupIds
        rw [idsOf_setInputAt]
        exact hnd

theorem redirectAll_preserves (srcId soId siId : Nat) :
    ∀ (L : List Nat) (g : Graph), NodupIds g →
      hasSrcInput g soId srcId → hasInputTensor g siId (soId, 0) →
      (∀ d ∈ L, d ≠ soId ∧ d ≠ siId) →
      Preserves g (redirectAll srcId siId g L)
      ∧ NodupIds (redirectAll srcId siId g L)
      ∧ hasSrcInput (redirectAll srcId siId g L) soId srcId
      ∧ hasInputTensor (redirectAll srcId siId g L) siId (soId, 0) := by
  intro L
  induction L with
  | nil => intro g hnd hso hsi _; exact ⟨preserves_rfl g, hnd, hso, hsi⟩
  | cons d rest ih =>
    intro g hnd hso hsi hL
    obtain ⟨hd1, hd2⟩ := hL d (List.mem_cons_self _ _)
    obtain ⟨p1, p2, p3, p4⟩ := redirectStep_preserves hnd hso hsi hd1 hd2
    obtain ⟨q1, q2, q3, q4⟩ := ih (redirectStep g srcId siId d) p2 p3 p4
      (fun d' hd' => hL d' (List.mem_cons_of_mem _ hd'))
    rw [redirectAll_cons_step]
    exact ⟨preserves_trans p1 q1, q2, q3, q4⟩

/-- `add_swapin` preserves reachability: the only redirected edge is
bypassed through the relocate chain; the graph keeps distinct ids and
the relocate-out keeps consuming the producer's tensor. -/
theorem addSwapin_preserves {g : Graph} {soId srcId destId : Nat}
    (hnd : NodupIds g) (hso : hasSrcInput g soId srcId)
    (h1 : destId ≠ soId) :
    Preserves g (addSwapin g soId srcId destId).1
    ∧ NodupIds (addSwapin g soId srcId destId).1
    ∧ hasSrcInput (addSwapin g soId srcId destId).1 soId srcId := by
  unfold addSwapin
  rcases hts : tsFromSrc g destId srcId with _ | ts0
  · exact ⟨preserves_rfl g, hnd, hso⟩
  · rcases hop : opById g destId with _ | destOp
    · exact ⟨preserves_rfl g, hnd, hso⟩
    · obtain ⟨hmemD, hidD⟩ := opById_mem hop
      have hnd1 : NodupIds ⟨g.ops ++ [mkIdentity g (soId, 0)]⟩ :=
        nodupIds_append_fresh hnd (freshId_not_mem g)
      have hso1 : hasSrcInput ⟨g.ops ++ [mkIdentity g (soId, 0)]⟩ soId srcId :=
        hasSrcInput_append _ hso
      have hsi1 : hasInputTensor ⟨g.ops ++ [mkIdentity g (soId, 0)]⟩
          (mkIdentity g (soId, 0)).id (soId, 0) :=
        hasInputTensor_mkIdentity_append g (soId, 0)
      have hdmem : destId ∈ idsOf g := List.mem_map.mpr ⟨destOp, hmemD, hidD⟩
      have hd2 : destId ≠ (mkIdentity g (soId, 0)).id := by
        intro he
        rw [he] at hdmem
        exact freshId_not_mem g hdmem
      have hop1 : opById ⟨g.ops ++ [mkIdentity g (soId, 0)]⟩ destId
          = some destOp := by
        unfold opById at hop ⊢
        exact find?_append_of_some hop _
      have hts1 : tsFromSrc ⟨g.ops ++ [mkIdentity g (soId, 0)]⟩ destId srcId
          = some ts0 := by
        unfold tsFromSrc at hts ⊢
        rw [hop] at hts
        rw [hop1]
        exact hts
      have heq : setInputAt ⟨g.ops ++ [mkIdentity g (soId, 0)]⟩ destId
            (inputIndex ts0 destOp.inputs) ((mkIdentity g (soId, 0)).id, 0)
          = redirectStep ⟨g.ops ++ [mkIdentity g (soId, 0)]⟩ srcId
              (mkIdentity g (soId, 0)).id destId := by
        unfold redirectStep
        rw [hts1, hop1]
      obtain ⟨p1, p2, p3, _⟩ := redirectStep_preserves hnd1 hso1 hsi1 h1 hd2
      show Preserves g (setInputAt ⟨g.ops ++ [mkIdentity g (soId, 0)]⟩ destId
          (inputIndex ts0 destOp.inputs) ((mkIdentity g (soId, 0)).id, 0))
        ∧ NodupIds (setInputAt ⟨g.ops ++ [mkIdentity g (soId, 0)]⟩ destId
          (inputIndex ts0 destOp.inputs) ((mkIdentity g (soId, 0)).id, 0))
        ∧ hasSrcInput (setInputAt ⟨g.ops ++ [mkIdentity g (soId, 0)]⟩ destId
          (inputIndex ts0 destOp.inputs) ((mkIdentity g (soId, 0)).id, 0))
          soId srcId
      rw [heq]
      exact ⟨preserves_trans (preserves_append g _) p1, p2, p3⟩

theorem individualSwapins_preserves (srcId soId : Nat) :
    ∀ (L : List Nat) (st : LMSState), NodupIds st.graph →
      hasSrcInput st.graph soId srcId → (∀ d ∈ L, d ≠ soId) →
      Preserves st.graph (individualSwapins srcId soId st L).graph
      ∧ NodupIds (individualSwapins srcId soId st L).graph
      ∧ hasSrcInput (individualSwapins srcId soId st L).graph soId srcId := by
  intro L
  induction L with
  | nil => intro st hnd hso _; exact ⟨preserves_rfl _, hnd, hso⟩
  | cons d rest ih =>
    intro st hnd hso hL
    obtain ⟨p1, p2, p3⟩ := addSwapin_preserves hnd hso (hL d (List.mem_cons_self _ _))
    have hrest : ∀ d' ∈ rest, d' ≠ soId := fun d' hd' =>
      hL d' (List.mem_cons_of_mem _ hd')
    rw [individualSwapins_cons]
    rcases he : addSwapin st.graph soId srcId d with ⟨g1, osi⟩
    rw [he] at p1 p2 p3
    rcases osi with _ | siId
    · obtain ⟨q1, q2, q3⟩ := ih { st with graph := g1 } p2 p3 hrest
      exact ⟨preserves_trans p1 q1, q2, q3⟩
    · have c1 : Preserves g1 (addCtrld g1 st.topo st.gradOps st.strategy srcId
          d siId st.lb st.ub) := preserves_addCtrld _ _ _ _ _ _ _ _ _
      have c2 : NodupIds (addCtrld g1 st.topo st.gradOps st.strategy srcId
          d siId st.lb st.ub) := by
        unfold NodupIds
        rw [idsOf_addCtrld]
        exact p2
      have c3 : hasSrcInput (addCtrld g1 st.topo st.gradOps st.strategy srcId
          d siId st.lb st.ub) soId srcId :=
        hasSrcInput_addCtrld _ _ _ _ _ _ _ _ p3
      obtain ⟨q1, q2, q3⟩ := ih
        { st with
          graph := addCtrld g1 st.topo st.gradOps st.strategy srcId d siId
            st.lb st.ub
          exclOps := st.exclOps ++ [siId] } c2 c3 hrest
      exact ⟨preserves_trans p1 (preserves_trans c1 q1), q2, q3⟩

theorem fusedState_graph (st : LMSState) (srcId soId : Nat) (bwF : List Nat) :
    (fusedState st srcId soId bwF).graph
      = (match (earliestOp st.topo (fuseBwFrontier st.topo bwF)
            (none, (st.topo.size : Int) + 1)).1 with
         | some e => addCtrld (redirectAll srcId (mkIdentity st.graph (soId, 0)).id
             ⟨st.graph.ops ++ [mkIdentity st.graph (soId, 0)]⟩
             (fuseBwFrontier st.topo bwF)) st.topo st.gradOps st.strategy
             srcId e (mkIdentity st.graph (soId, 0)).id st.lb st.ub
         | none => redirectAll srcId (mkIdentity st.graph (soId, 0)).id
             ⟨st.graph.ops ++ [mkIdentity st.graph (soId, 0)]⟩
             (fuseBwFrontier st.topo bwF)) := rfl

theorem fusedState_preserves (st : LMSState) (srcId soId : Nat)
    (bwF : List Nat) (hnd : NodupIds st.graph)
    (hso : hasSrcInput st.graph soId srcId)
    (hL : ∀ d ∈ bwF, d ∈ idsOf st.graph ∧ d ≠ soId) :
    Preserves st.graph (fusedState st srcId soId bwF).graph
    ∧ NodupIds (fusedState st srcId soId bwF).graph
    ∧ hasSrcInput (fusedState st srcId soId bwF).graph soId srcId := by
  have hnd1 : NodupIds ⟨st.graph.ops ++ [mkIdentity st.graph (soId, 0)]⟩ :=
    nodupIds_append_fresh hnd (freshId_not_mem st.graph)
  have hso1 : hasSrcInput ⟨st.graph.ops ++ [mkIdentity st.graph (soId, 0)]⟩
      soId srcId := hasSrcInput_append _ hso
  have hsi1 : hasInputTensor ⟨st.graph.ops ++ [mkIdentity st.graph (soId, 0)]⟩
      (mkIdentity st.graph (soId, 0)).id (soId, 0) :=
    hasInputTensor_mkIdentity_append st.graph (soId, 0)
  have hLr : ∀ d ∈ fuseBwFrontier st.topo bwF,
      d ≠ soId ∧ d ≠ (mkIdentity st.graph (soId, 0)).id := by
    intro d hd
    have hd' := hL d (List.mem_filter.mp hd).1
    refine ⟨hd'.2, ?_⟩
    intro he
    have hmem := hd'.1
    rw [he] at hmem
    exact freshId_not_mem st.graph hmem
  obtain ⟨q1, q2, q3, _⟩ := redirectAll_preserves srcId soId
    (mkIdentity st.graph (soId, 0)).id (fuseBwFrontier st.topo bwF)
    ⟨st.graph.ops ++ [mkIdentity st.graph (soId, 0)]⟩ hnd1 hso1 hsi1 hLr
  rw [fusedState_graph]
  rcases (earliestOp st.topo (fuseBwFrontier st.topo bwF)
      (none, (st.topo.size : Int) + 1)).1 with _ | e
  · exact ⟨preserves_trans (preserves_append st.graph _) q1, q2, q3⟩
  · refine ⟨preserves_trans (preserves_append st.graph _)
      (preserves_trans q1 (preserves_addCtrld _ _ _ _ _ _ _ _ _)), ?_,
      hasSrcInput_addCtrld _ _ _ _ _ _ _ _ q3⟩
    unfold NodupIds
    rw [idsOf_addCtrld]
    exact q2

theorem processSwapins_preserves (srcId soId sampleId : Nat) (st : LMSState)
    (bwF : List Nat) (hnd : NodupIds st.graph)
    (hso : hasSrcInput st.graph soId srcId)
    (hL : ∀ d ∈ bwF, d ∈ idsOf st.graph ∧ d ≠ soId) :
    Preserves st.graph (processSwapins srcId soId sampleId st bwF).graph
    ∧ NodupIds (processSwapins srcId soId sampleId st bwF).graph
    ∧ hasSrcInput (processSwapins srcId soId sampleId st bwF).graph
        soId srcId := by
  unfold processSwapins
  by_cases hf : st.fuse = true ∧ fuseBwFrontier st.topo bwF ≠ []
  · rw [if_pos hf]
    obtain ⟨f1, f2, f3⟩ := fusedState_preserves st srcId soId bwF hnd hso hL
    have hrem : ∀ d ∈ bwF.filter (fun op => op ∉ fuseBwFrontier st.topo bwF),
        d ≠ soId := fun d hd => (hL d (List.mem_filter.mp hd).1).2
    obtain ⟨i1, i2, i3⟩ := individualSwapins_preserves srcId soId
      (bwF.filter (fun op => op ∉ fuseBwFrontier st.topo bwF))
      (fusedState st srcId soId bwF) f2 f3 hrem
    exact ⟨preserves_trans f1 i1, i2, i3⟩
  · rw [if_neg hf]
    exact individualSwapins_preserves srcId soId bwF st hnd hso
      (fun d hd => (hL d hd).2)

theorem consumingOps_mem_ids {g : Graph} {tr : TensorRef} {d : Nat}
    (h : d ∈ consumingOps g tr) : d ∈ idsOf g := by
  unfold consumingOps at h
  obtain ⟨o, ho, hid⟩ := List.mem_map.mp h
  exact List.mem_map.mpr ⟨o, (List.mem_filter.mp ho).1, hid⟩

theorem getBranchOps_subset {t : TOPOS} {within : List Nat} {th : Int}
    {d : Nat} (h : d ∈ getBranchOps t within th) : d ∈ within := by
  unfold getBranchOps at h
  rcases hm : within.map t.getOrder with _ | ⟨o, os⟩
  · rw [hm] at h
    cases h
  · rw [hm] at h
    exact (List.mem_filter.mp h).1

/-- Every backward-frontier consumer of a tensor is an operation of the
current graph (it comes from `consuming_ops`, possibly through the
branch filter). -/
theorem bwFrontierOf_mem_ids {st : LMSState} {tr : TensorRef} {d : Nat}
    (h : d ∈ bwFrontierOf st tr) : d ∈ idsOf st.graph := by
  simp only [bwFrontierOf] at h
  have h1 := (List.mem_filter.mp h).1
  by_cases hsb : st.swapBranches = true
  · rw [if_pos hsb] at h1
    rcases List.mem_append.mp h1 with h2 | h2
    · exact consumingOps_mem_ids (List.mem_filter.mp h2).1
    · have h3 := getBranchOps_subset (List.mem_filter.mp h2).1
      exact consumingOps_mem_ids (List.mem_filter.mp h3).1
  · rw [if_neg hsb] at h1
    exact consumingOps_mem_ids (List.mem_filter.mp h1).1

theorem processTensor_preserves (st : LMSState) (srcId : Nat)
    (tr : TensorRef) (hnd : NodupIds st.graph) :
    Preserves st.graph (processTensor st srcId tr).graph
    ∧ NodupIds (processTensor st srcId tr).graph := by
  rcases hbw : bwFrontierOf st tr with _ | ⟨sample, rest⟩
  · rw [processTensor_nil hbw]
    exact ⟨preserves_rfl _, hnd⟩
  · rw [processTensor_cons hbw]
    have haso : addSwapout st.graph srcId sample
        = match tsFromSrc st.graph sample srcId with
          | none => (st.graph, none)
          | some ts0 => (⟨st.graph.ops ++ [mkIdentity st.graph ts0]⟩,
              some (mkIdentity st.graph ts0).id) := rfl
    rw [haso]
    rcases hts : tsFromSrc st.graph sample srcId with _ | ts0
    · exact ⟨preserves_rfl _, hnd⟩
    · have hts0src : ts0.1 = srcId := by
        unfold tsFromSrc at hts
        rcases hops : opById st.graph sample with _ | sampleOp
        · rw [hops] at hts
          cases hts
        · rw [hops] at hts
          have := List.find?_some hts
          simpa using this
      have hnd1 : NodupIds ⟨st.graph.ops ++ [mkIdentity st.graph ts0]⟩ :=
        nodupIds_append_fresh hnd (freshId_not_mem st.graph)
      have hso1 : hasSrcInput ⟨st.graph.ops ++ [mkIdentity st.graph ts0]⟩
          (mkIdentity st.graph ts0).id srcId :=
        ⟨mkIdentity st.graph ts0,
         List.mem_append.mpr (Or.inr (List.mem_singleton.mpr rfl)), rfl,
         ts0, List.mem_singleton.mpr rfl, hts0src⟩
      have hL : ∀ d ∈ sample :: rest,
          d ∈ idsOf ⟨st.graph.ops ++ [mkIdentity st.graph ts0]⟩
          ∧ d ≠ (mkIdentity st.graph ts0).id := by
        intro d hd
        have hdbw : d ∈ bwFrontierOf st tr := by
          rw [hbw]
          exact hd
        have hdi := bwFrontierOf_mem_ids hdbw
        constructor
        · rw [idsOf_append]
          exact List.mem_append.mpr (Or.inl hdi)
        · intro he
          rw [he] at hdi
          exact freshId_not_mem st.graph hdi
      obtain ⟨p1, p2, p3⟩ := processSwapins_preserves srcId
        (mkIdentity st.graph ts0).id sample
        { st with
          graph := ⟨st.graph.ops ++ [mkIdentity st.graph ts0]⟩
          exclOps := st.exclOps ++ [(mkIdentity st.graph ts0).id]
          incpuCount := st.incpuCount + 1 } (sample :: rest) hnd1 hso1 hL
      exact ⟨preserves_trans (preserves_append st.graph _) p1, p2⟩

theorem insertSwnodesLoop_preserves (srcId : Nat) :
    ∀ (trs : List TensorRef) (st : LMSState), NodupIds st.graph →
      Preserves st.graph (insertSwnodesLoop srcId st trs).graph
      ∧ NodupIds (insertSwnodesLoop srcId st trs).graph := by
  intro trs
  induction trs with
  | nil => intro st hnd; exact ⟨preserves_rfl _, hnd⟩
  | cons tr rest ih =>
    intro st hnd
    rw [insertSwnodesLoop_cons]
    by_cases h : 0 < st.nTensors ∧ st.nTensors ≤ st.incpuCount
    · rw [if_pos h]
      exact ⟨preserves_rfl _, hnd⟩
    · rw [if_neg h]
      obtain ⟨p1, p2⟩ := processTensor_preserves st srcId tr hnd
      obtain ⟨q1, q2⟩ := ih (processTensor st srcId tr) p2
      exact ⟨preserves_trans p1 q1, q2⟩

theorem insertSwnodes_preserves (st : LMSState) (srcId : Nat)
    (hnd : NodupIds st.graph) :
    Preserves st.graph (insertSwnodes st srcId).graph
    ∧ NodupIds (insertSwnodes st srcId).graph := by
  rw [insertSwnodes_eq]
  by_cases h1 : srcId ∈ st.exclOps
  · rw [if_pos h1]
    exact ⟨preserves_rfl _, hnd⟩
  · rw [if_neg h1]
    by_cases h2 : st.inclOps ≠ [] ∧ srcId ∉ st.inclOps
    · rw [if_pos h2]
      exact ⟨preserves_rfl _, hnd⟩
    · rw [if_neg h2]
      rcases opById st.graph srcId with _ | o
      · exact ⟨preserves_rfl _, hnd⟩
      · exact insertSwnodesLoop_preserves srcId (outputsOf o) st hnd

theorem doActionLoop_preserves :
    ∀ (fuel : Nat) (st : LMSState) (queue closed : List Nat),
      NodupIds st.graph →
      Preserves st.graph (doActionLoop fuel st queue closed).graph
      ∧ NodupIds (doActionLoop fuel st queue closed).graph := by
  intro fuel
  induction fuel with
  | zero => intro st q c hnd; exact ⟨preserves_rfl _, hnd⟩
  | succ f ih =>
    intro st q c hnd
    rcases q with _ | ⟨src, rest⟩
    · exact ⟨preserves_rfl _, hnd⟩
    · rw [doActionLoop_cons]
      obtain ⟨p1, p2⟩ := insertSwnodes_preserves st src hnd
      obtain ⟨q1, q2⟩ := ih (insertSwnodes st src) _ _ p2
      exact ⟨preserves_trans p1 q1, q2⟩

/-- C3: when the operation ids of the input graph are distinct, every
reachability fact over data+control edges survives the pass — for any
configuration, in particular any pass performing at least one
relocation — because the only removed edges are input redirections
bypassed through producer → relocate-out → relocate-in → consumer; and
the result graph returned by the pass body is exactly the final graph
of the traversal: the post-validation only computes the `valid` report
and never rolls any applied mutation back. -/
theorem c3_reachability_monotone_and_no_rollback (cfg : LMSConfig)
    (g : Graph) (hnd : NodupIds g)
    (hswap : 1 ≤ (runLMS cfg g).swapCount) :
    (∀ s x, Reaches g s x → Reaches (runLMS cfg g).graph s x)
    ∧ (∀ (n : Nat) (seeds : List Nat),
        (runBody cfg g n seeds).graph
          = (doActionLoop (g.ops.length + seeds.length + 1)
              (initialState cfg g
                (exclOpsOf g cfg (reachableOpsOf g seeds (gradOpsOf g cfg)))
                (inclOpsOf g cfg (reachableOpsOf g seeds (gradOpsOf g cfg)))
                (gradOpsOf g cfg) n) seeds []).graph) := by
  constructor
  · intro s x hr
    unfold runLMS
    by_cases h0 : cfg.nTensors = 0
    · rw [if_pos h0]
      exact hr
    · rw [if_neg h0]
      rcases seedOps g cfg (gradOpsOf g cfg) with _ | seeds
      · exact hr
      · exact (doActionLoop_preserves (g.ops.length + seeds.length + 1)
          (initialState cfg g
            (exclOpsOf g cfg (reachableOpsOf g seeds (gradOpsOf g cfg)))
            (inclOpsOf g cfg (reachableOpsOf g seeds (gradOpsOf g cfg)))
            (gradOpsOf g cfg)
            (if cfg.nTensors < 0 then 0 else cfg.nTensors.toNat))
          seeds [] hnd).1 s x hr
  · intro n seeds
    rfl

/-- Witness for C3: a pass over `exCap` that performs two relocations
preserves the pre-existing dependency path from op 0 to op 4. -/
theorem c3_reachability_monotone_witness :
    (NodupIds exCap
      ∧ 1 ≤ (runLMS ⟨[["grad"]], some ["fw"], [], [], [], [], 1, 10000, -1,
          false, CTRLDStrategy.chainRule, false, 0⟩ exCap).swapCount)
    ∧ Reaches (runLMS ⟨[["grad"]], some ["fw"], [], [], [], [], 1, 10000, -1,
        false, CTRLDStrategy.chainRule, false, 0⟩ exCap).graph 0 4 :=
  ⟨⟨by show (idsOf exCap).Nodup; decide, by decide⟩,
   (c3_reachability_monotone_and_no_rollback
      ⟨[["grad"]], some ["fw"], [], [], [], [], 1, 10000, -1, false,
        CTRLDStrategy.chainRule, false, 0⟩ exCap
      (by show (idsOf exCap).Nodup; decide) (by decide)).1
     0 4
     (Relation.ReflTransGen.tail
       (Relation.ReflTransGen.single
         ⟨⟨2, ["grad", "a"], "X", [(0, 0)], [], 1⟩, by decide, rfl,
          Or.inl ⟨(0, 0), by decide, rfl⟩⟩)
       ⟨⟨4, ["grad", "c"], "X", [(2, 0), (3, 0)], [], 1⟩, by decide, rfl,
        Or.inl ⟨(2, 0), by decide, rfl⟩⟩)⟩

end LMSVerif
